import Mathlib

/-! # Verification development for `bench.cpp`

A shallow embedding of the six benchmark routines of `src/bench.cpp`
(`mandelbrot`, `matmul`, `fft`, `blur`, `sort_bench` and the static buffer scan of `main`)
together with theorems about them.

Conventions of the embedding:

* a C++ `int` value is an `Int`; where the magnitude of an intermediate result is not bounded by
  a constant, the arithmetic is reduced with `wrapInt32` (two's complement, 32 bits);
* sizes and loop indices, which the source only ever uses with non-negative values, are `Nat`;
* `double` and `std::complex<double>` are embedded in exact arithmetic: rationals for
  `mandelbrot` and `matmul`, an arbitrary commutative ring for the `fft` butterflies;
* the conversion `static_cast<int>(double)` is only defined when the truncated value fits an
  `int`, so it is embedded as a function to `Option Int`;
* a `std::vector` is a `List`, `v[i]` is `List.getD` and `v[i] = a` is `List.set`.
-/

namespace Bench

/-! ## Machine integers -/

/-- Two's-complement reduction of an integer to the range of a 32-bit `int`. -/
def wrapInt32 (v : Int) : Int := (v + 2147483648) % 4294967296 - 2147483648

/-- Reduction of a natural number to the range of a 64-bit `unsigned long long`. -/
def wrapUInt64 (v : Nat) : Nat := v % 18446744073709551616

/-! ## Image convolution: `blur` -/

/-- A `std::vector<std::vector<T>>`. -/
abbrev Grid (α : Type) := List (List α)

/-- Read `g[y][x]`. -/
def grid_get {α : Type} [Zero α] (g : Grid α) (y x : Nat) : α := (g.getD y []).getD x 0

/-- Write `g[y][x] = v`. -/
def grid_set {α : Type} (g : Grid α) (y x : Nat) (v : α) : Grid α :=
  g.set y ((g.getD y []).set x v)

/-- The sum of all entries of a grid. -/
def grid_sum {α : Type} [AddMonoid α] (g : Grid α) : α := (g.map List.sum).sum

/-- The grid has `H` rows of `W` entries each. -/
def GridDims {α : Type} (g : Grid α) (H W : Nat) : Prop :=
  g.length = H ∧ ∀ y, y < H → (g.getD y []).length = W

/-- The table `int kernel[3][3] = {{1,2,1},{2,4,2},{1,2,1}}`. -/
def kernel : Grid Int := [[1, 2, 1], [2, 4, 2], [1, 2, 1]]

/-- The two innermost loops of `blur`: starting from `acc = 0`, for `ky` and `kx` in `-1 .. 1`,
`acc += img[y+ky][x+kx] * kernel[ky+1][kx+1]`. -/
def blur_acc (img : Grid Int) (y x : Nat) : Int :=
  ([-1, 0, 1] : List Int).foldl (fun acc ky =>
    ([-1, 0, 1] : List Int).foldl (fun acc kx =>
      wrapInt32 (acc + wrapInt32
        (grid_get img ((y : Int) + ky).toNat ((x : Int) + kx).toNat
          * grid_get kernel (ky + 1).toNat (kx + 1).toNat))) acc) 0

/-- The body of the `x` loop of `blur` on the state `(out, sum)`:
`out[y][x] = acc / 16; sum += out[y][x];`. -/
def blur_pixel (img : Grid Int) (y : Nat) (st : Grid Int × Int) (x : Nat) : Grid Int × Int :=
  let out := grid_set st.1 y x (Int.tdiv (blur_acc img y x) 16)
  (out, wrapInt32 (st.2 + grid_get out y x))

/-- The loop `for (int x = 1; x < W-1; ++x)` of `blur` for the row `y`. -/
def blur_row (img : Grid Int) (W : Nat) (st : Grid Int × Int) (y : Nat) : Grid Int × Int :=
  (List.range' 1 (W - 2)).foldl (blur_pixel img y) st

/-- The state `(out, sum)` of `blur(W, H)` when the loop `for (int y = 1; y < H-1; ++y)`
has finished. -/
def blur_state (W H : Nat) : Grid Int × Int :=
  let img : Grid Int := List.replicate H (List.replicate W 128)
  let out : Grid Int := List.replicate H (List.replicate W 0)
  (List.range' 1 (H - 2)).foldl (blur_row img W) (out, 0)

/-- The routine `int blur(int W, int H)`: the final value of `sum`. -/
def blur (W H : Nat) : Int := (blur_state W H).2

/-! ## Conversion of a `double` to `int` -/

/-- Truncation toward zero of a value of an ordered field with a floor function. -/
def trunc {K : Type} [LinearOrderedField K] [FloorRing K] (v : K) : Int :=
  if 0 ≤ v then ⌊v⌋ else ⌈v⌉

/-- The conversion `static_cast<int>(v)` of a `double`: the value truncated toward zero when
that fits the 32-bit `int`, and no value (undefined behaviour in the source) when it does
not. -/
def cast_int {K : Type} [LinearOrderedField K] [FloorRing K] (v : K) : Option Int :=
  if -2147483648 ≤ trunc v ∧ trunc v ≤ 2147483647 then some (trunc v) else none

/-- The common return expression `static_cast<int>(checksum) % 1000000` of `matmul` and
`fft`; `%` on `int` truncates toward zero. -/
def checksum_result {K : Type} [LinearOrderedField K] [FloorRing K] (checksum : K) :
    Option Int :=
  (cast_int checksum).map (fun t => Int.tmod t 1000000)

/-! ## Escape-time fractal: `mandelbrot` -/

/-- A `std::complex<double>` in exact arithmetic: real and imaginary part. -/
structure Cplx where
  /-- The real part. -/
  re : ℚ
  /-- The imaginary part. -/
  im : ℚ
  deriving DecidableEq

/-- The complex product `a * b`. -/
def Cplx.mul (a b : Cplx) : Cplx := ⟨a.re * b.re - a.im * b.im, a.re * b.im + a.im * b.re⟩

/-- The complex sum `a + b`. -/
def Cplx.add (a b : Cplx) : Cplx := ⟨a.re + b.re, a.im + b.im⟩

/-- The test `abs(z) < 2.0`. In exact arithmetic `abs(z)` is the non-negative square root of
`re² + im²`, so the test holds exactly when `re² + im² < 4`. -/
def abs_lt_two (z : Cplx) : Bool := decide (z.re * z.re + z.im * z.im < 4)

/-- The coordinate `c` of pixel `(x, y)`:
`((x - width/2.0) * 4.0 / width, (y - height/2.0) * 4.0 / width)`. -/
def pixel_c (width height x y : Nat) : Cplx :=
  ⟨((x : ℚ) - (width : ℚ) / 2) * 4 / (width : ℚ),
   ((y : ℚ) - (height : ℚ) / 2) * 4 / (width : ℚ)⟩

/-- The loop `while (abs(z) < 2.0 && iter < max_iter) { z = z*z + c; ++iter; }` on the state
`(z, iter)`, run for at most `fuel` iterations. -/
def mandel_loop (c : Cplx) (max_iter : Nat) : Nat → Cplx × Nat → Cplx × Nat
  | 0, st => st
  | fuel + 1, st =>
    if abs_lt_two st.1 = true ∧ st.2 < max_iter then
      mandel_loop c max_iter fuel (Cplx.add (Cplx.mul st.1 st.1) c, st.2 + 1)
    else st

/-- The final state `(z, iter)` of the escape loop of one pixel, started at `z = 0`,
`iter = 0`. The loop performs at most `max_iter` iterations, which is the fuel given. -/
def mandel_pixel (c : Cplx) (max_iter : Nat) : Cplx × Nat :=
  mandel_loop c max_iter max_iter (⟨0, 0⟩, 0)

/-- The routine `int mandelbrot(int width, int height, int max_iter)`. -/
def mandelbrot (width height max_iter : Nat) : Int :=
  (List.range height).foldl (fun sum y =>
    (List.range width).foldl (fun sum x =>
      wrapInt32 (sum + ((mandel_pixel (pixel_c width height x y) max_iter).2 : Int))) sum) 0

/-! ## Dense matrix product: `matmul` -/

/-- The loop `for k: C[i][j] += A[i][k] * B[k][j]` of `matmul`. -/
def matmul_k (A B : Grid ℚ) (N i j : Nat) (C : Grid ℚ) : Grid ℚ :=
  (List.range N).foldl (fun C k =>
    grid_set C i j (grid_get C i j + grid_get A i k * grid_get B k j)) C

/-- The matrix `C` of `matmul(N)` when the triple loop has finished. -/
def matmul_C (N : Nat) : Grid ℚ :=
  let A : Grid ℚ := List.replicate N (List.replicate N (11 / 10))
  let B : Grid ℚ := List.replicate N (List.replicate N (22 / 10))
  let C : Grid ℚ := List.replicate N (List.replicate N 0)
  (List.range N).foldl (fun C i =>
    (List.range N).foldl (fun C j => matmul_k A B N i j C) C) C

/-- The value of `checksum` of `matmul(N)` when the summation loops have finished. -/
def matmul_checksum (N : Nat) : ℚ :=
  (List.range N).foldl (fun checksum i =>
    (List.range N).foldl (fun checksum j => checksum + grid_get (matmul_C N) i j) checksum) 0

/-- The routine `int matmul(int N)`; `none` when the conversion of the checksum to `int` is
undefined. -/
def matmul (N : Nat) : Option Int := checksum_result (matmul_checksum N)

/-! ## Radix-2 transform: `fft`

The complex numbers are an arbitrary commutative ring `R`; the functions
`m ↦ std::exp(std::complex<double>(0, -2.0 * M_PI / m))` and `std::abs` of the library are
the parameters `twiddle` and `mag`. -/

/-- The loop `while (m >= 1 && j >= m) { j -= m; m /= 2; }` on the state `(m, j)`. -/
def bitrev_while (m j : Nat) : Nat × Nat :=
  if 1 ≤ m ∧ m ≤ j then bitrev_while (m / 2) (j - m) else (m, j)
termination_by m
decreasing_by omega

/-- The call `std::swap(x[i], x[j])`. -/
def swap {R : Type} [Zero R] (x : List R) (i j : Nat) : List R :=
  (x.set i (x.getD j 0)).set j (x.getD i 0)

/-- The state of the bit-reversal loop of `fft`: the array `x`, the tracked index `j`, and the
list of the swaps performed so far (a trace, not a variable of the source). -/
structure BitrevState (R : Type) where
  /-- The array. -/
  x : List R
  /-- The tracked index. -/
  j : Nat
  /-- The swaps performed so far, oldest first. -/
  swaps : List (Nat × Nat)

/-- The body of the bit-reversal loop for the index `i`:
`if (i < j) swap(x[i], x[j]); m = n/2; while (...) {...}; j += m;`. -/
def bitrev_step {R : Type} [Zero R] (n : Nat) (st : BitrevState R) (i : Nat) : BitrevState R :=
  let x := if i < st.j then swap st.x i st.j else st.x
  let swaps := if i < st.j then st.swaps ++ [(i, st.j)] else st.swaps
  let mj := bitrev_while (n / 2) st.j
  { x := x, j := mj.2 + mj.1, swaps := swaps }

/-- The bit-reversal loop `for (int i = 0; i < n; ++i)` of `fft`, cut after `count`
iterations. -/
def bitrev_loop {R : Type} [Zero R] (n count : Nat) (x : List R) : BitrevState R :=
  (List.range count).foldl (bitrev_step n) { x := x, j := 0, swaps := [] }

/-- The body of the innermost loop of `fft` on the state `(x, w)`: one butterfly on the
entries `k + j` and `k + j + m/2`, followed by `w *= wm`. -/
def fft_butterfly {R : Type} [CommRing R] (wm : R) (m k : Nat) (st : List R × R) (j : Nat) :
    List R × R :=
  let t := st.2 * st.1.getD (k + j + m / 2) 0
  let u := st.1.getD (k + j) 0
  (((st.1.set (k + j) (u + t)).set (k + j + m / 2) (u - t)), st.2 * wm)

/-- The loop `for (int j = 0; j < m/2; ++j)` of `fft` for the block that starts at `k`, with
`w = 1` at the start. -/
def fft_block {R : Type} [CommRing R] (wm : R) (m k : Nat) (x : List R) : List R :=
  ((List.range (m / 2)).foldl (fft_butterfly wm m k) (x, 1)).1

/-- The loop `for (int k = 0; k < n; k += m)` of `fft` with `m = 1 << s`, from the block start
`k` on. -/
def fft_kloop {R : Type} [CommRing R] (wm : R) (n s : Nat) (k : Nat) (x : List R) : List R :=
  if k < n then fft_kloop wm n s (k + 2 ^ s) (fft_block wm (2 ^ s) k x) else x
termination_by n - k
decreasing_by
  have : 0 < 2 ^ s := Nat.pos_pow_of_pos s (by decide)
  omega

/-- The body of the stage loop of `fft` for the stage `s`. -/
def fft_stage {R : Type} [CommRing R] (twiddle : Nat → R) (n : Nat) (x : List R) (s : Nat) :
    List R :=
  fft_kloop (twiddle (2 ^ s)) n s 0 x

/-- The builtin `__builtin_ctz(N)`: the number of trailing zero bits of `N`. The builtin is
undefined for `0`, where this function is `0`. -/
def ctz (n : Nat) : Nat :=
  if n = 0 then 0 else if n % 2 = 1 then 0 else ctz (n / 2) + 1
termination_by n
decreasing_by omega

/-- The stage numbers `s = 1, ..., __builtin_ctz(N)` that the stage loop of `fft` runs
through. -/
def fft_stages (N : Nat) : List Nat := List.range' 1 (ctz N)

/-- The initial array of `fft(N)`: `x[i] = i % 256`. -/
def fft_input (R : Type) [CommRing R] (N : Nat) : List R :=
  (List.range N).map (fun i => ((i % 256 : Nat) : R))

/-- The array `x` of `fft(N)` when the stage loop has finished. -/
def fft_output {R : Type} [CommRing R] (twiddle : Nat → R) (N : Nat) : List R :=
  (fft_stages N).foldl (fft_stage twiddle N) (bitrev_loop N N (fft_input R N)).x

/-- The value of `checksum` of `fft(N)` when the summation loop has finished. -/
def fft_checksum {R K : Type} [CommRing R] [LinearOrderedField K] (twiddle : Nat → R)
    (mag : R → K) (N : Nat) : K :=
  (List.range N).foldl (fun checksum i => checksum + mag ((fft_output twiddle N).getD i 0)) 0

/-- The routine `int fft(int N)`; `none` when the conversion of the checksum to `int` is
undefined. -/
def fft {R K : Type} [CommRing R] [LinearOrderedField K] [FloorRing K] (twiddle : Nat → R)
    (mag : R → K) (N : Nat) : Option Int :=
  checksum_result (fft_checksum twiddle mag N)

/-- The bit reversal of the `k` low bits of `i`. -/
def rev_bits : Nat → Nat → Nat
  | 0, _ => 0
  | k + 1, i => (i % 2) * 2 ^ k + rev_bits k (i / 2)

/-! ## Sorting: `sort_bench` -/

/-- The state of a `std::mt19937` engine: the 624 words and the position of the next one. -/
structure MTState where
  /-- The state words. -/
  mt : List Nat
  /-- The position of the next word. -/
  idx : Nat

/-- Modelled from the spec: the constructor `std::mt19937 rng(seed)` of the C++ library, whose
source is not in the repository; the seeding recurrence is the one the C++ standard fixes for
`mt19937`. -/
def mt_seed (seed : Nat) : MTState :=
  { mt := ((List.range 623).foldl
      (fun (acc : List Nat × Nat) i =>
        let v := (1812433253 * (acc.2 ^^^ (acc.2 >>> 30)) + (i + 1)) % 4294967296
        (acc.1 ++ [v], v))
      ([seed % 4294967296], seed % 4294967296)).1,
    idx := 624 }

/-- Modelled from the spec: the regeneration of the 624 state words of `std::mt19937`. -/
def mt_twist (mt : List Nat) : List Nat :=
  (List.range 624).foldl
    (fun (mt : List Nat) i =>
      let y := (mt.getD i 0 &&& 0x80000000) ||| (mt.getD ((i + 1) % 624) 0 &&& 0x7fffffff)
      mt.set i (mt.getD ((i + 397) % 624) 0 ^^^ (y >>> 1)
        ^^^ (if y % 2 = 1 then 0x9908b0df else 0)))
    mt

/-- Modelled from the spec: the tempering of an output word of `std::mt19937`. -/
def mt_temper (y : Nat) : Nat :=
  let y := y ^^^ (y >>> 11)
  let y := y ^^^ ((y <<< 7) &&& 0x9d2c5680)
  let y := y ^^^ ((y <<< 15) &&& 0xefc60000)
  y ^^^ (y >>> 18)

/-- Modelled from the spec: one call `rng()` of `std::mt19937`, giving the output word in
`[0, 2^32)` and the next state. -/
def mt_next (s : MTState) : Nat × MTState :=
  let s := if 624 ≤ s.idx then { mt := mt_twist s.mt, idx := 0 } else s
  (mt_temper (s.mt.getD s.idx 0), { mt := s.mt, idx := s.idx + 1 })

/-- The call `std::generate(arr.begin(), arr.end(), rng)` on an array of `n` entries: each
entry receives the next output word, converted to `int`. -/
def generate : Nat → MTState → List Int
  | 0, _ => []
  | n + 1, s => wrapInt32 (mt_next s).1 :: generate n (mt_next s).2

/-- Insertion of `a` into a non-decreasing list. -/
def sorted_insert (a : Int) : List Int → List Int
  | [] => [a]
  | b :: l => if a ≤ b then a :: b :: l else b :: sorted_insert a l

/-- Modelled from the spec: the library call `std::sort(arr.begin(), arr.end())`, whose source
is not in the repository ("sorts ascending using a standard comparison sort"); an insertion
sort stands for it. -/
def std_sort : List Int → List Int
  | [] => []
  | a :: l => sorted_insert a (std_sort l)

/-- The array `arr` of `sort_bench(N)` before the sort step. -/
def sort_input (N : Nat) : List Int := generate N (mt_seed 42)

/-- The array `arr` of `sort_bench(N)` after the sort step. -/
def sort_output (N : Nat) : List Int := std_sort (sort_input N)

/-- The routine `int sort_bench(int N)`: the read `arr[N/2]`, which is `none` when the index
is outside the array. -/
def sort_bench (N : Nat) : Option Int := (sort_output N)[N / 2]?

/-! ## Static buffer scan of `main` -/

/-- The loop `for (size_t i = 0; i < sizeof(buf); ++i) bigsum += buf[i];` with the 64-bit
accumulator `bigsum` started at `0`. -/
def buffer_sum (buf : List Nat) : Nat :=
  (List.range buf.length).foldl (fun bigsum i => wrapUInt64 (bigsum + buf.getD i 0)) 0

/-- The buffer `static unsigned char big_data[8 * 1024 * 1024] = {42};`. -/
def big_data : List Nat := 42 :: List.replicate (8 * 1024 * 1024 - 1) 0

/-! ## Reference functions for `fft` -/

/-- The effect of one butterfly stage with blocks of `m` entries on the entry `a`, in terms of
the array `x` before the stage. -/
def stage_map {R : Type} [CommRing R] (wm : R) (m : Nat) (x : List R) (a : Nat) : R :=
  if a % m < m / 2 then x.getD a 0 + wm ^ (a % m) * x.getD (a + m / 2) 0
  else x.getD (a - m / 2) 0 - wm ^ (a % m - m / 2) * x.getD a 0

/-- The transform of `2^s` points, with the root `w`, of the block of `y` that contains the
index `a`, taken in bit-reversed order, at the frequency `a % 2^s`. -/
def block_dft {R : Type} [CommRing R] (w : R) (s : Nat) (y : Nat → R) (a : Nat) : R :=
  ∑ q in Finset.range (2 ^ s), y (a / 2 ^ s * 2 ^ s + rev_bits s q) * w ^ (q * (a % 2 ^ s))

/-! ## Reference functions for `mandelbrot` -/

/-- The sequence `z_0 = 0`, `z_(n+1) = z_n² + c`. -/
def orbit (c : Cplx) : Nat → Cplx
  | 0 => ⟨0, 0⟩
  | n + 1 => Cplx.add (Cplx.mul (orbit c n) (orbit c n)) c

/-- The reference count of a pixel, in the words of the specification: the least `n` with
`|z_n| ≥ 2.0` when there is one below `max_iter`, and `max_iter` otherwise. -/
def escape_count (c : Cplx) (max_iter : Nat) : Nat :=
  if h : ∃ n, n < max_iter ∧ abs_lt_two (orbit c n) = false then Nat.find h else max_iter

/-- The iteration count that pixel `(x, y)` contributes in `mandelbrot`. -/
def mandel_count (width height max_iter x y : Nat) : Nat :=
  (mandel_pixel (pixel_c width height x y) max_iter).2

/-- The sum of the iteration counts of all pixels, as a natural number. -/
def mandel_sum (width height max_iter : Nat) : Nat :=
  ∑ y in Finset.range height, ∑ x in Finset.range width, mandel_count width height max_iter x y

/-! ## Reference function for the return value of `matmul` -/

/-- The real-valued remainder `fmod(v, m)`, which has the sign of `v`. -/
def fmod {K : Type} [LinearOrderedField K] [FloorRing K] (v m : K) : K :=
  v - m * (trunc (v / m) : K)

/-- The return value in the words of the specification, "sum modulo 1,000,000 truncated to
integer": the real-valued remainder first, then the truncation. -/
def spec_result {K : Type} [LinearOrderedField K] [FloorRing K] (sum : K) : Int :=
  trunc (fmod sum 1000000)

/-! ## The array indices used by the butterfly stages of `fft` -/

/-- The indices used by the loop over `j` for the block that starts at `k`: each round reads
`x[k + j + m/2]` and `x[k + j]` and then writes `x[k + j]` and `x[k + j + m/2]`. -/
def fft_block_indices (m k : Nat) : List Nat :=
  (List.range (m / 2)).flatMap (fun j => [k + j + m / 2, k + j, k + j, k + j + m / 2])

/-- The indices used by the loop `for (int k = 0; k < n; k += m)` with `m = 1 << s`, from the
block start `k` on. -/
def fft_kloop_indices (n s : Nat) (k : Nat) : List Nat :=
  if k < n then fft_block_indices (2 ^ s) k ++ fft_kloop_indices n s (k + 2 ^ s) else []
termination_by n - k
decreasing_by
  have : 0 < 2 ^ s := Nat.pos_pow_of_pos s (by decide)
  omega

/-- The indices used by the stage loop of `fft(N)`. -/
def fft_stage_indices (N : Nat) : List Nat :=
  (fft_stages N).flatMap (fun s => fft_kloop_indices N s 0)

/-! ## Timing of `main` -/

/-- The expression `duration_cast<milliseconds>(b - a).count()` for two readings `a` and `b`
of `high_resolution_clock`, each the number of clock ticks since the epoch of the clock;
`ticks_per_ms` is the number of ticks in one millisecond, a constant of the library
(`1000000` for a clock that counts nanoseconds). The conversion truncates toward zero. -/
def elapsed_ms (ticks_per_ms : Nat) (a b : Nat) : Int :=
  Int.tdiv ((b : Int) - (a : Int)) (ticks_per_ms : Int)

/-- The six stage timings that `main` prints, from the readings `t0`, ..., `t6`. -/
def stage_timings (ticks_per_ms t0 t1 t2 t3 t4 t5 t6 : Nat) : List Int :=
  [elapsed_ms ticks_per_ms t0 t1, elapsed_ms ticks_per_ms t1 t2, elapsed_ms ticks_per_ms t2 t3,
   elapsed_ms ticks_per_ms t3 t4, elapsed_ms ticks_per_ms t4 t5, elapsed_ms ticks_per_ms t5 t6]

/-- The total time that `main` prints. -/
def total_timing (ticks_per_ms t0 t6 : Nat) : Int := elapsed_ms ticks_per_ms t0 t6

/-! # Lemmas and theorems -/

/-! ## Lemmas on grids -/

theorem wrapInt32_of_range (v : Int) (h1 : -2147483648 ≤ v) (h2 : v < 2147483648) :
    wrapInt32 v = v := by
  unfold wrapInt32; omega

theorem wrapInt32_add_left (a b : Int) : wrapInt32 (wrapInt32 a + b) = wrapInt32 (a + b) := by
  unfold wrapInt32; omega

theorem getD_set_eq {α : Type} (l : List α) (i j : Nat) (a d : α) :
    (l.set i a).getD j d = if i = j ∧ i < l.length then a else l.getD j d := by
  simp only [List.getD_eq_getElem?_getD, List.getElem?_set]
  by_cases h : i = j
  · subst h
    by_cases h2 : i < l.length
    · simp [h2]
    · simp [h2, List.getElem?_eq_none (Nat.le_of_not_lt h2)]
  · simp [h]

theorem getD_replicate_lt {α : Type} (n i : Nat) (a d : α) (h : i < n) :
    (List.replicate n a).getD i d = a := by
  simp [List.getD_eq_getElem?_getD, List.getElem?_replicate, h]

theorem gridDims_replicate {α : Type} (H W : Nat) (v : α) :
    GridDims (List.replicate H (List.replicate W v)) H W := by
  refine ⟨by simp, fun y hy => ?_⟩
  rw [getD_replicate_lt _ _ _ _ hy]; simp

theorem grid_get_replicate {α : Type} [Zero α] (H W y x : Nat) (v : α) (hy : y < H)
    (hx : x < W) :
    grid_get (List.replicate H (List.replicate W v)) y x = v := by
  unfold grid_get
  rw [getD_replicate_lt _ _ _ _ hy, getD_replicate_lt _ _ _ _ hx]

theorem gridDims_set {α : Type} (g : Grid α) (H W y x : Nat) (v : α) (hg : GridDims g H W) :
    GridDims (grid_set g y x v) H W := by
  obtain ⟨h1, h2⟩ := hg
  refine ⟨by simp [grid_set, h1], fun y' hy' => ?_⟩
  unfold grid_set
  rw [getD_set_eq]
  split
  · next h => rw [List.length_set, h.1, h2 y' hy']
  · exact h2 y' hy'

theorem grid_get_set {α : Type} [Zero α] (g : Grid α) (H W y x y' x' : Nat) (v : α)
    (hg : GridDims g H W)
    (hy : y < H) (hx : x < W) :
    grid_get (grid_set g y x v) y' x' = if y' = y ∧ x' = x then v else grid_get g y' x' := by
  obtain ⟨h1, h2⟩ := hg
  unfold grid_get grid_set
  rw [getD_set_eq]
  by_cases hyy : y = y'
  · subst hyy
    rw [if_pos ⟨rfl, by omega⟩, getD_set_eq, h2 y hy]
    by_cases hxx : x = x'
    · subst hxx; simp [hx]
    · have : ¬ x' = x := fun h => hxx h.symm
      simp [hxx, this]
  · have : ¬ y' = y := fun h => hyy h.symm
    simp [hyy, this]


/-! ## `blur`: the value of a pixel and the loops -/

theorem blur_acc_const (W H y x : Nat) (hy1 : 1 ≤ y) (hy2 : y + 1 < H) (hx1 : 1 ≤ x)
    (hx2 : x + 1 < W) :
    blur_acc (List.replicate H (List.replicate W 128)) y x = 2048 := by
  have hg : ∀ dy dx : Int, -1 ≤ dy → dy ≤ 1 → -1 ≤ dx → dx ≤ 1 →
      grid_get (List.replicate H (List.replicate W (128 : Int))) ((y : Int) + dy).toNat
        ((x : Int) + dx).toNat = 128 := by
    intro dy dx h1 h2 h3 h4
    apply grid_get_replicate <;> omega
  simp only [blur_acc, List.foldl]
  rw [hg (-1) (-1), hg (-1) 0, hg (-1) 1, hg 0 (-1), hg 0 0, hg 0 1, hg 1 (-1), hg 1 0, hg 1 1]
    <;> decide

/-- The effect of the `x` loop over the columns `1 .. n` of row `y`, when every pixel value
computed in that row is `128`. -/
theorem blur_row_fold (img : Grid Int) (H W y n : Nat) (st : Grid Int × Int) (hg : GridDims st.1 H W)
    (hs : wrapInt32 st.2 = st.2) (hy : y < H) (hn : n ≤ W - 1)
    (hv : ∀ x, 1 ≤ x → x < 1 + n → Int.tdiv (blur_acc img y x) 16 = 128) :
    GridDims ((List.range' 1 n).foldl (blur_pixel img y) st).1 H W ∧
    (∀ y' x', grid_get ((List.range' 1 n).foldl (blur_pixel img y) st).1 y' x' =
      if y' = y ∧ 1 ≤ x' ∧ x' < 1 + n then 128 else grid_get st.1 y' x') ∧
    ((List.range' 1 n).foldl (blur_pixel img y) st).2 = wrapInt32 (st.2 + 128 * n) := by
  induction n with
  | zero =>
    refine ⟨hg, fun y' x' => ?_, ?_⟩
    · have : ¬ (y' = y ∧ 1 ≤ x' ∧ x' < 1 + 0) := by omega
      rw [if_neg this]; rfl
    · simpa using hs.symm
  | succ n ih =>
    obtain ⟨ih1, ih2, ih3⟩ := ih (by omega) (fun x h1 h2 => hv x h1 (by omega))
    rw [List.range'_concat, List.foldl_append]
    simp only [List.foldl, Nat.one_mul]
    generalize (List.range' 1 n).foldl (blur_pixel img y) st = st' at ih1 ih2 ih3 ⊢
    have hx : 1 + n < W := by omega
    simp only [blur_pixel]
    rw [hv (1 + n) (by omega) (by omega)]
    refine ⟨gridDims_set _ _ _ _ _ _ ih1, fun y' x' => ?_, ?_⟩
    · rw [grid_get_set _ H W _ _ _ _ _ ih1 hy hx, ih2]
      by_cases h1 : y' = y ∧ x' = 1 + n
      · rw [if_pos h1, if_pos (by omega)]
      · rw [if_neg h1]
        by_cases h2 : y' = y ∧ 1 ≤ x' ∧ x' < 1 + n
        · rw [if_pos h2, if_pos (by omega)]
        · rw [if_neg h2, if_neg (by omega)]
    · rw [grid_get_set _ H W _ _ _ _ _ ih1 hy hx, if_pos ⟨rfl, rfl⟩, ih3, wrapInt32_add_left]
      congr 1
      push_cast
      ring

theorem wrapInt32_idem (v : Int) : wrapInt32 (wrapInt32 v) = wrapInt32 v := by
  unfold wrapInt32; omega

/-- The effect of the `y` loop over the rows `1 .. m`. -/
theorem blur_rows_fold (W H m : Nat) (hm : m ≤ H - 2) :
    GridDims ((List.range' 1 m).foldl (blur_row (List.replicate H (List.replicate W 128)) W)
      (List.replicate H (List.replicate W 0), 0)).1 H W ∧
    (∀ y x, grid_get ((List.range' 1 m).foldl
        (blur_row (List.replicate H (List.replicate W 128)) W)
        (List.replicate H (List.replicate W 0), 0)).1 y x =
      if (1 ≤ y ∧ y < 1 + m) ∧ 1 ≤ x ∧ x < 1 + (W - 2) then 128
      else grid_get (List.replicate H (List.replicate W 0)) y x) ∧
    ((List.range' 1 m).foldl (blur_row (List.replicate H (List.replicate W 128)) W)
      (List.replicate H (List.replicate W 0), 0)).2 = wrapInt32 (128 * (W - 2 : Nat) * m) := by
  induction m with
  | zero =>
    refine ⟨gridDims_replicate H W 0, fun y x => ?_, by simp [wrapInt32]⟩
    have : ¬ ((1 ≤ y ∧ y < 1 + 0) ∧ 1 ≤ x ∧ x < 1 + (W - 2)) := by omega
    rw [if_neg this]; rfl
  | succ m ih =>
    obtain ⟨ih1, ih2, ih3⟩ := ih (by omega)
    rw [List.range'_concat, List.foldl_append]
    simp only [List.foldl, Nat.one_mul]
    generalize (List.range' 1 m).foldl (blur_row (List.replicate H (List.replicate W 128)) W)
      (List.replicate H (List.replicate W 0), 0) = st at ih1 ih2 ih3 ⊢
    have hy : 1 + m < H := by omega
    have hrow := blur_row_fold (List.replicate H (List.replicate W 128)) H W (1 + m) (W - 2) st
      ih1 (by rw [ih3, wrapInt32_idem]) hy (by omega)
      (fun x h1 h2 => by
        rw [blur_acc_const W H (1 + m) x (by omega) (by omega) h1 (by omega)]; decide)
    obtain ⟨r1, r2, r3⟩ := hrow
    refine ⟨r1, fun y x => ?_, ?_⟩
    · unfold blur_row
      rw [r2, ih2]
      by_cases h1 : y = 1 + m ∧ 1 ≤ x ∧ x < 1 + (W - 2)
      · rw [if_pos h1, if_pos (by omega)]
      · rw [if_neg h1]
        by_cases h2 : (1 ≤ y ∧ y < 1 + m) ∧ 1 ≤ x ∧ x < 1 + (W - 2)
        · rw [if_pos h2, if_pos (by omega)]
        · rw [if_neg h2, if_neg (by omega)]
    · unfold blur_row
      rw [r3, ih3, wrapInt32_add_left]
      congr 1

/-- The final state of `blur(W, H)`: the output grid holds `128` at the interior pixels and `0`
elsewhere, and `sum` is `128 * (W-2) * (H-2)` reduced to 32 bits. -/
theorem blur_state_spec (W H : Nat) :
    GridDims (blur_state W H).1 H W ∧
    (∀ y x, y < H → x < W → grid_get (blur_state W H).1 y x =
      if 1 ≤ y ∧ y + 1 < H ∧ 1 ≤ x ∧ x + 1 < W then 128 else 0) ∧
    (blur_state W H).2 = wrapInt32 (128 * (W - 2 : Nat) * (H - 2 : Nat)) := by
  obtain ⟨h1, h2, h3⟩ := blur_rows_fold W H (H - 2) (by omega)
  refine ⟨h1, fun y x hy hx => ?_, h3⟩
  unfold blur_state
  simp only
  rw [h2, grid_get_replicate H W y x 0 hy hx]
  by_cases h : 1 ≤ y ∧ y + 1 < H ∧ 1 ≤ x ∧ x + 1 < W
  · rw [if_pos h, if_pos (by omega)]
  · rw [if_neg h, if_neg (by omega)]

/-! ## Summing a grid that is given entry by entry -/

theorem list_eq_map_range {α : Type} (l : List α) (n : Nat) (d : α) (f : Nat → α)
    (hl : l.length = n) (hf : ∀ i, i < n → l.getD i d = f i) : l = (List.range n).map f := by
  apply List.ext_getElem
  · simp [hl]
  · intro i h1 h2
    have := hf i (by omega)
    rw [List.getD_eq_getElem?_getD, List.getElem?_eq_getElem h1] at this
    simpa using this

theorem grid_eq_map_range {α : Type} [Zero α] (g : Grid α) (H W : Nat) (f : Nat → Nat → α)
    (hg : GridDims g H W)
    (hf : ∀ y x, y < H → x < W → grid_get g y x = f y x) :
    g = (List.range H).map (fun y => (List.range W).map (f y)) := by
  apply list_eq_map_range g H [] _ hg.1
  intro y hy
  exact list_eq_map_range _ W 0 _ (hg.2 y hy) (fun x hx => hf y x hy hx)

theorem sum_map_range_ite (n a b : Nat) (c : Int) :
    ((List.range n).map (fun x => if a ≤ x ∧ x < b then c else 0)).sum
      = c * ((min n b - a : Nat) : Int) := by
  induction n with
  | zero => simp
  | succ n ih =>
    rw [List.range_succ, List.map_append, List.sum_append, ih]
    simp only [List.map_cons, List.map_nil, List.sum_cons, List.sum_nil, add_zero]
    by_cases h : a ≤ n ∧ n < b
    · rw [if_pos h]
      have : min (n + 1) b - a = (min n b - a) + 1 := by
        rw [Nat.min_def, Nat.min_def]; split <;> split <;> omega
      rw [this]; push_cast; ring
    · rw [if_neg h]
      have : min (n + 1) b - a = min n b - a := by
        rw [Nat.min_def, Nat.min_def]; split <;> split <;> omega
      rw [this]; ring

/-- The sum of a `H × W` grid that holds `c` at the interior pixels and `0` on the border. -/
theorem grid_sum_interior (g : Grid Int) (H W : Nat) (c : Int) (hg : GridDims g H W)
    (hf : ∀ y x, y < H → x < W → grid_get g y x =
      if 1 ≤ y ∧ y + 1 < H ∧ 1 ≤ x ∧ x + 1 < W then c else 0) :
    grid_sum g = c * (W - 2 : Nat) * (H - 2 : Nat) := by
  rw [grid_eq_map_range g H W _ hg hf]
  unfold grid_sum
  rw [List.map_map]
  have hrow : (List.sum ∘ fun y => (List.range W).map
      (fun x => if 1 ≤ y ∧ y + 1 < H ∧ 1 ≤ x ∧ x + 1 < W then c else 0))
      = fun y => if 1 ≤ y ∧ y < H - 1 then c * (W - 2 : Nat) else 0 := by
    funext y
    simp only [Function.comp]
    by_cases hy : 1 ≤ y ∧ y < H - 1
    · rw [if_pos hy]
      have : (fun x => if 1 ≤ y ∧ y + 1 < H ∧ 1 ≤ x ∧ x + 1 < W then c else 0)
          = fun x => if 1 ≤ x ∧ x < W - 1 then c else 0 := by
        funext x
        by_cases hx : 1 ≤ x ∧ x < W - 1
        · rw [if_pos hx, if_pos (by omega)]
        · rw [if_neg hx, if_neg (by omega)]
      rw [this, sum_map_range_ite]
      congr 2
      rw [Nat.min_def]; split <;> omega
    · rw [if_neg hy]
      have : (fun x => if 1 ≤ y ∧ y + 1 < H ∧ 1 ≤ x ∧ x + 1 < W then c else 0)
          = fun _ => (0 : Int) := by
        funext x
        rw [if_neg (by omega)]
      rw [this]
      simp
  rw [hrow, sum_map_range_ite]
  congr 2
  rw [Nat.min_def]; split <;> omega

/-! ## Claims on `blur` -/

/-- C1: in `blur(W, H)` with `W ≥ 3` and `H ≥ 3`, for every interior pixel `(x, y)`
(`1 ≤ x ≤ W-2`, `1 ≤ y ≤ H-2`) the kernel sums to `16`, the accumulated weighted sum is
`16 * 128 = 2048`, the truncating division by `16` has remainder `0`, the value written to
`out[y][x]` is `128`, and `out[y][x]` is still `128` when the routine finishes. -/
theorem blur_interior_pixel (W H x y : Nat) (hW : 3 ≤ W) (hH : 3 ≤ H)
    (hx1 : 1 ≤ x) (hx2 : x ≤ W - 2) (hy1 : 1 ≤ y) (hy2 : y ≤ H - 2) :
    grid_sum kernel = 16 ∧
    blur_acc (List.replicate H (List.replicate W 128)) y x = 16 * 128 ∧
    Int.tmod (blur_acc (List.replicate H (List.replicate W 128)) y x) 16 = 0 ∧
    (∀ st : Grid Int × Int, GridDims st.1 H W →
      grid_get (blur_pixel (List.replicate H (List.replicate W 128)) y st x).1 y x = 128) ∧
    grid_get (blur_state W H).1 y x = 128 := by
  have hacc := blur_acc_const W H y x hy1 (by omega) hx1 (by omega)
  refine ⟨by decide, by rw [hacc]; decide, by rw [hacc]; decide, fun st hst => ?_, ?_⟩
  · simp only [blur_pixel]
    rw [grid_get_set _ H W _ _ _ _ _ hst (by omega) (by omega), if_pos ⟨rfl, rfl⟩, hacc]
    decide
  · rw [(blur_state_spec W H).2.1 y x (by omega) (by omega), if_pos (by omega)]

/-- Witness of C1: the centre pixel of the 3 × 3 grid. -/
theorem blur_interior_pixel_witness :
    grid_sum kernel = 16 ∧
    blur_acc (List.replicate 3 (List.replicate 3 128)) 1 1 = 16 * 128 ∧
    Int.tmod (blur_acc (List.replicate 3 (List.replicate 3 128)) 1 1) 16 = 0 ∧
    (∀ st : Grid Int × Int, GridDims st.1 3 3 →
      grid_get (blur_pixel (List.replicate 3 (List.replicate 3 128)) 1 st 1).1 1 1 = 128) ∧
    grid_get (blur_state 3 3).1 1 1 = 128 :=
  blur_interior_pixel 3 3 1 1 (by decide) (by decide) (by decide) (by decide) (by decide)
    (by decide)

/-- C10: in `blur(W, H)` with `W ≥ 2`, `H ≥ 2` and `128*(W-2)*(H-2) < 2^31`, every border pixel
of the output grid is `0` when the routine finishes, and the returned value is the sum of all
entries of the output grid, which is `128*(W-2)*(H-2)`; for the 1024 × 1024 grid of `main` the
returned value is `133693952`. -/
theorem blur_border_and_sum :
    (∀ W H : Nat, 2 ≤ W → 2 ≤ H → 128 * ((W : Int) - 2) * ((H : Int) - 2) < 2 ^ 31 →
      (∀ y x, y < H → x < W → (y = 0 ∨ y = H - 1 ∨ x = 0 ∨ x = W - 1) →
        grid_get (blur_state W H).1 y x = 0) ∧
      blur W H = grid_sum (blur_state W H).1 ∧
      grid_sum (blur_state W H).1 = 128 * ((W : Int) - 2) * ((H : Int) - 2)) ∧
    blur 1024 1024 = 133693952 := by
  have key : ∀ W H : Nat, 2 ≤ W → 2 ≤ H → 128 * ((W : Int) - 2) * ((H : Int) - 2) < 2 ^ 31 →
      blur W H = 128 * ((W : Int) - 2) * ((H : Int) - 2) := by
    intro W H hW hH hb
    unfold blur
    rw [(blur_state_spec W H).2.2, Nat.cast_sub hW, Nat.cast_sub hH]
    apply wrapInt32_of_range
    · have h1 : (0 : Int) ≤ (W : Int) - 2 := by omega
      have h2 : (0 : Int) ≤ (H : Int) - 2 := by omega
      have := mul_nonneg (mul_nonneg (by norm_num : (0 : Int) ≤ 128) h1) h2
      push_cast at this ⊢
      omega
    · push_cast at hb ⊢
      exact hb
  refine ⟨fun W H hW hH hb => ⟨fun y x hy hx hborder => ?_, ?_, ?_⟩, ?_⟩
  · rw [(blur_state_spec W H).2.1 y x hy hx, if_neg (by omega)]
  · rw [key W H hW hH hb, grid_sum_interior _ H W 128 (blur_state_spec W H).1
      (blur_state_spec W H).2.1, Nat.cast_sub hW, Nat.cast_sub hH]
    push_cast; ring
  · rw [grid_sum_interior _ H W 128 (blur_state_spec W H).1
      (blur_state_spec W H).2.1, Nat.cast_sub hW, Nat.cast_sub hH]
    push_cast; ring
  · rw [key 1024 1024 (by decide) (by decide) (by norm_num)]
    norm_num

/-- Witness of C10: the 4 × 5 grid. -/
theorem blur_border_and_sum_witness :
    (2 : Nat) ≤ 4 ∧ ((∀ y x, y < 5 → x < 4 → (y = 0 ∨ y = 5 - 1 ∨ x = 0 ∨ x = 4 - 1) →
        grid_get (blur_state 4 5).1 y x = 0) ∧
      blur 4 5 = grid_sum (blur_state 4 5).1 ∧
      grid_sum (blur_state 4 5).1 = 128 * (((4 : Nat) : Int) - 2) * (((5 : Nat) : Int) - 2)) :=
  ⟨by decide, blur_border_and_sum.1 4 5 (by decide) (by decide) (by norm_num)⟩

/-! ## Static buffer scan -/

theorem buffer_sum_upto (K n m : Nat) (hK : K < 18446744073709551616) (hm : m ≤ n + 1) :
    (List.range m).foldl
      (fun bigsum i => wrapUInt64 (bigsum + (K :: List.replicate n 0).getD i 0)) 0
      = if m = 0 then 0 else K := by
  induction m with
  | zero => rfl
  | succ m ih =>
    rw [List.range_succ, List.foldl_append, ih (by omega)]
    simp only [List.foldl]
    cases m with
    | zero =>
      simp only [List.getD_cons_zero, wrapUInt64]
      simp
      omega
    | succ m =>
      rw [if_neg (by omega), if_neg (by omega), List.getD_cons_succ,
        getD_replicate_lt n m 0 0 (by omega)]
      simp only [wrapUInt64]
      omega

theorem buffer_sum_single (K n : Nat) (hK : K < 18446744073709551616) :
    buffer_sum (K :: List.replicate n 0) = K := by
  unfold buffer_sum
  rw [buffer_sum_upto K n _ hK (by simp), if_neg (by simp)]

theorem sum_single (K n : Nat) : (K :: List.replicate n 0).sum = K := by
  rw [List.sum_cons, List.sum_replicate, smul_zero]
  rfl

theorem big_data_length : big_data.length = 8 * 1024 * 1024 := by
  unfold big_data
  rw [List.length_cons, List.length_replicate]

/-- C6: for a buffer of any size `S ≥ 1` whose byte 0 holds `K ≤ 255` and whose other bytes are
zero, the summation loop of `main` yields exactly `K`; for the 8 MiB buffer `big_data` (byte 0
is `42`, the rest zero) the sum is `42`, which is also the sum without reduction to 64 bits. -/
theorem buffer_scan_sum :
    (∀ S K : Nat, 1 ≤ S → K ≤ 255 → buffer_sum (K :: List.replicate (S - 1) 0) = K) ∧
    big_data.length = 8 * 1024 * 1024 ∧
    buffer_sum big_data = 42 ∧
    big_data.sum = 42 := by
  refine ⟨fun S K _ hK => buffer_sum_single K (S - 1) (by omega), ?_, ?_, ?_⟩
  · exact big_data_length
  · exact buffer_sum_single 42 _ (by decide)
  · exact sum_single 42 _

/-- Witness of C6: a buffer of five bytes whose first byte is `7`. -/
theorem buffer_scan_sum_witness : buffer_sum (7 :: List.replicate (5 - 1) 0) = 7 :=
  buffer_scan_sum.1 5 7 (by decide) (by decide)

/-! ## `mandelbrot`: the centre pixel -/

theorem mandel_loop_zero (max_iter n it : Nat) (hit : it ≤ max_iter) :
    mandel_loop ⟨0, 0⟩ max_iter n (⟨0, 0⟩, it) = (⟨0, 0⟩, min (it + n) max_iter) := by
  induction n generalizing it with
  | zero => simp [mandel_loop, hit]
  | succ n ih =>
    unfold mandel_loop
    by_cases h : it < max_iter
    · have hz : Cplx.add (Cplx.mul ⟨0, 0⟩ ⟨0, 0⟩) ⟨0, 0⟩ = (⟨0, 0⟩ : Cplx) := by
        simp [Cplx.add, Cplx.mul]
      have ht : abs_lt_two ⟨0, 0⟩ = true := by simp [abs_lt_two]
      simp only [ht, h, and_self, if_true, hz]
      rw [ih (it + 1) (by omega)]
      congr 2
      omega
    · have : ¬ (abs_lt_two ⟨0, 0⟩ = true ∧ it < max_iter) := fun hh => h hh.2
      simp only [this, if_false]
      congr 1
      omega

/-- With at least `max_iter - iter` rounds of fuel the escape loop stops because its condition
fails: the fuel given by `mandel_pixel` never runs out before the loop of the source ends. -/
theorem mandel_loop_exit (c : Cplx) (max_iter fuel : Nat) (st : Cplx × Nat)
    (h : max_iter ≤ st.2 + fuel) :
    ¬ (abs_lt_two (mandel_loop c max_iter fuel st).1 = true ∧
      (mandel_loop c max_iter fuel st).2 < max_iter) := by
  induction fuel generalizing st with
  | zero =>
    unfold mandel_loop
    intro hh
    have := hh.2
    omega
  | succ fuel ih =>
    unfold mandel_loop
    by_cases hc : abs_lt_two st.1 = true ∧ st.2 < max_iter
    · rw [if_pos hc]
      exact ih _ (by simp only; omega)
    · rw [if_neg hc]
      exact hc

theorem pixel_c_centre (W : Nat) (heven : W % 2 = 0) :
    pixel_c W W (W / 2) (W / 2) = ⟨0, 0⟩ := by
  have h2 : ((W / 2 : Nat) : ℚ) = (W : ℚ) / 2 := by
    rw [Nat.cast_div (Nat.dvd_of_mod_eq_zero heven) (by norm_num)]
    norm_num
  unfold pixel_c
  rw [h2]
  simp

/-- C5: for every even `W > 0` (width = height = `W`) and every `max_iter`, the pixel
`(W/2, W/2)` maps to `c = 0 + 0i`; started at `z = 0` the escape loop keeps `z = 0`, the test
`abs(z) < 2.0` holds at `z = 0`, after any number `n` of rounds the state is
`(0, min n max_iter)`, and the iteration count of the pixel is `max_iter`. -/
theorem mandelbrot_centre_pixel (W max_iter : Nat) (_hW : 0 < W) (heven : W % 2 = 0) :
    pixel_c W W (W / 2) (W / 2) = ⟨0, 0⟩ ∧
    abs_lt_two ⟨0, 0⟩ = true ∧
    (∀ n, mandel_loop (pixel_c W W (W / 2) (W / 2)) max_iter n (⟨0, 0⟩, 0)
      = (⟨0, 0⟩, min n max_iter)) ∧
    (mandel_pixel (pixel_c W W (W / 2) (W / 2)) max_iter).2 = max_iter := by
  rw [pixel_c_centre W heven]
  refine ⟨rfl, by simp [abs_lt_two], fun n => ?_, ?_⟩
  · rw [mandel_loop_zero max_iter n 0 (Nat.zero_le _), Nat.zero_add]
  · unfold mandel_pixel
    rw [mandel_loop_zero max_iter max_iter 0 (Nat.zero_le _)]
    simp

/-- Witness of C5: the 800 × 800 grid with 1000 iterations of `main`. -/
theorem mandelbrot_centre_pixel_witness :
    pixel_c 800 800 (800 / 2) (800 / 2) = ⟨0, 0⟩ ∧
    abs_lt_two ⟨0, 0⟩ = true ∧
    (∀ n, mandel_loop (pixel_c 800 800 (800 / 2) (800 / 2)) 1000 n (⟨0, 0⟩, 0)
      = (⟨0, 0⟩, min n 1000)) ∧
    (mandel_pixel (pixel_c 800 800 (800 / 2) (800 / 2)) 1000).2 = 1000 :=
  mandelbrot_centre_pixel 800 1000 (by decide) (by decide)

/-! ## Conversion to `int` -/

theorem trunc_of_nonneg {K : Type} [LinearOrderedField K] [FloorRing K] (v : K) (h : 0 ≤ v) :
    trunc v = ⌊v⌋ := by
  unfold trunc; rw [if_pos h]

theorem cast_int_of_nonneg_lt {K : Type} [LinearOrderedField K] [FloorRing K] (v : K)
    (h0 : 0 ≤ v) (h1 : v < 2147483648) : cast_int v = some ⌊v⌋ := by
  unfold cast_int
  rw [trunc_of_nonneg v h0]
  have hf0 : (0 : Int) ≤ ⌊v⌋ := Int.floor_nonneg.mpr h0
  have hf1 : ⌊v⌋ < 2147483648 := Int.floor_lt.mpr (by exact_mod_cast h1)
  rw [if_pos ⟨by omega, by omega⟩]

theorem cast_int_of_ge {K : Type} [LinearOrderedField K] [FloorRing K] (v : K)
    (h : 2147483648 ≤ v) : cast_int v = none := by
  have h0 : (0 : K) ≤ v := le_trans (by norm_num) h
  unfold cast_int
  rw [trunc_of_nonneg v h0]
  have hf : (2147483648 : Int) ≤ ⌊v⌋ := Int.le_floor.mpr (by exact_mod_cast h)
  rw [if_neg (by omega)]

/-! ## `matmul`: the loops -/

/-- The effect of the first `n` rounds of the `k` loop on the entry `(i, j)`, when each
product `A[i][k] * B[k][j]` is `c`. -/
theorem matmul_k_fold (A B : Grid ℚ) (N i j n : Nat) (C : Grid ℚ) (c : ℚ)
    (hC : GridDims C N N) (hi : i < N) (hj : j < N)
    (hAB : ∀ k, k < n → grid_get A i k * grid_get B k j = c) :
    GridDims ((List.range n).foldl (fun C k =>
      grid_set C i j (grid_get C i j + grid_get A i k * grid_get B k j)) C) N N ∧
    ∀ i' j', grid_get ((List.range n).foldl (fun C k =>
      grid_set C i j (grid_get C i j + grid_get A i k * grid_get B k j)) C) i' j'
      = if i' = i ∧ j' = j then grid_get C i j + n * c else grid_get C i' j' := by
  induction n with
  | zero =>
    refine ⟨hC, fun i' j' => ?_⟩
    by_cases h : i' = i ∧ j' = j
    · rw [if_pos h, h.1, h.2]; simp
    · rw [if_neg h]; rfl
  | succ n ih =>
    obtain ⟨ih1, ih2⟩ := ih (fun k hk => hAB k (by omega))
    rw [List.range_succ, List.foldl_append]
    simp only [List.foldl]
    generalize (List.range n).foldl (fun C k =>
      grid_set C i j (grid_get C i j + grid_get A i k * grid_get B k j)) C = C' at ih1 ih2 ⊢
    refine ⟨gridDims_set _ _ _ _ _ _ ih1, fun i' j' => ?_⟩
    rw [grid_get_set _ N N _ _ _ _ _ ih1 hi hj]
    by_cases h : i' = i ∧ j' = j
    · rw [if_pos h, if_pos h, ih2 i j, if_pos ⟨rfl, rfl⟩, hAB n (by omega)]
      push_cast; ring
    · rw [if_neg h, if_neg h, ih2 i' j', if_neg h]

/-- The effect of the first `n` rounds of the `j` loop on row `i`. -/
theorem matmul_j_fold (A B : Grid ℚ) (N i n : Nat) (C : Grid ℚ) (c : ℚ)
    (hC : GridDims C N N) (hi : i < N) (hn : n ≤ N)
    (hAB : ∀ j k, j < N → k < N → grid_get A i k * grid_get B k j = c) :
    GridDims ((List.range n).foldl (fun C j => matmul_k A B N i j C) C) N N ∧
    ∀ i' j', grid_get ((List.range n).foldl (fun C j => matmul_k A B N i j C) C) i' j'
      = if i' = i ∧ j' < n then grid_get C i' j' + N * c else grid_get C i' j' := by
  induction n with
  | zero =>
    refine ⟨hC, fun i' j' => ?_⟩
    have h0 : ¬ (i' = i ∧ j' < 0) := by omega
    rw [if_neg h0]; rfl
  | succ n ih =>
    obtain ⟨ih1, ih2⟩ := ih (by omega)
    rw [List.range_succ, List.foldl_append]
    simp only [List.foldl]
    generalize (List.range n).foldl (fun C j => matmul_k A B N i j C) C = C' at ih1 ih2 ⊢
    obtain ⟨k1, k2⟩ := matmul_k_fold A B N i n N C' c ih1 hi (by omega)
      (fun k hk => hAB n k (by omega) hk)
    refine ⟨k1, fun i' j' => ?_⟩
    unfold matmul_k
    rw [k2]
    by_cases h : i' = i ∧ j' = n
    · have h3 : ¬ (i = i ∧ n < n) := by omega
      have h4 : i' = i ∧ j' < n + 1 := by omega
      rw [if_pos h, if_pos h4, ih2 i n, if_neg h3, h.1, h.2]
    · rw [if_neg h, ih2 i' j']
      by_cases h2 : i' = i ∧ j' < n
      · have h4 : i' = i ∧ j' < n + 1 := by omega
        rw [if_pos h2, if_pos h4]
      · have h4 : ¬ (i' = i ∧ j' < n + 1) := by omega
        rw [if_neg h2, if_neg h4]

/-- The effect of the first `n` rounds of the `i` loop. -/
theorem matmul_i_fold (A B : Grid ℚ) (N n : Nat) (C : Grid ℚ) (c : ℚ)
    (hC : GridDims C N N) (hn : n ≤ N)
    (hAB : ∀ i j k, i < N → j < N → k < N → grid_get A i k * grid_get B k j = c) :
    GridDims ((List.range n).foldl (fun C i =>
      (List.range N).foldl (fun C j => matmul_k A B N i j C) C) C) N N ∧
    ∀ i' j', grid_get ((List.range n).foldl (fun C i =>
      (List.range N).foldl (fun C j => matmul_k A B N i j C) C) C) i' j'
      = if i' < n ∧ j' < N then grid_get C i' j' + N * c else grid_get C i' j' := by
  induction n with
  | zero =>
    refine ⟨hC, fun i' j' => ?_⟩
    have h0 : ¬ (i' < 0 ∧ j' < N) := by omega
    rw [if_neg h0]; rfl
  | succ n ih =>
    obtain ⟨ih1, ih2⟩ := ih (by omega)
    rw [List.range_succ, List.foldl_append]
    simp only [List.foldl]
    generalize (List.range n).foldl (fun C i =>
      (List.range N).foldl (fun C j => matmul_k A B N i j C) C) C = C' at ih1 ih2 ⊢
    obtain ⟨k1, k2⟩ := matmul_j_fold A B N n N C' c ih1 (by omega) (le_refl _)
      (fun j k hj hk => hAB n j k (by omega) hj hk)
    refine ⟨k1, fun i' j' => ?_⟩
    rw [k2, ih2 i' j']
    by_cases h : i' = n ∧ j' < N
    · have h3 : ¬ (i' < n ∧ j' < N) := by omega
      have h4 : i' < n + 1 ∧ j' < N := by omega
      rw [if_pos h, if_neg h3, if_pos h4]
    · rw [if_neg h]
      by_cases h2 : i' < n ∧ j' < N
      · have h4 : i' < n + 1 ∧ j' < N := by omega
        rw [if_pos h2, if_pos h4]
      · have h4 : ¬ (i' < n + 1 ∧ j' < N) := by omega
        rw [if_neg h2, if_neg h4]

/-- Every entry of `C` after the triple loop of `matmul(N)` is `N * 1.1 * 2.2`. -/
theorem matmul_C_entry (N i j : Nat) (hi : i < N) (hj : j < N) :
    grid_get (matmul_C N) i j = (N : ℚ) * (11 / 10) * (22 / 10) := by
  obtain ⟨_, h⟩ := matmul_i_fold (List.replicate N (List.replicate N (11 / 10)))
    (List.replicate N (List.replicate N (22 / 10))) N N
    (List.replicate N (List.replicate N 0)) ((11 / 10) * (22 / 10))
    (gridDims_replicate N N 0) (le_refl _)
    (fun i j k hi hj hk => by
      rw [grid_get_replicate N N i k _ hi hk, grid_get_replicate N N k j _ hk hj])
  unfold matmul_C
  simp only
  rw [h i j, if_pos ⟨hi, hj⟩, grid_get_replicate N N i j 0 hi hj]
  ring

theorem foldl_add_const (n : Nat) (f : Nat → ℚ) (v s : ℚ) (hf : ∀ j, j < n → f j = v) :
    (List.range n).foldl (fun checksum j => checksum + f j) s = s + n * v := by
  induction n with
  | zero => simp
  | succ n ih =>
    rw [List.range_succ, List.foldl_append, ih (fun j hj => hf j (by omega))]
    simp only [List.foldl]
    rw [hf n (by omega)]
    push_cast; ring

/-- The checksum of `matmul(N)` is `2.42 * N^3`. -/
theorem matmul_checksum_eq (N : Nat) : matmul_checksum N = (121 / 50) * (N : ℚ) ^ 3 := by
  have hrow : ∀ n, n ≤ N → ∀ s : ℚ, (List.range n).foldl (fun checksum i =>
      (List.range N).foldl (fun checksum j => checksum + grid_get (matmul_C N) i j) checksum) s
      = s + n * (N * ((N : ℚ) * (11 / 10) * (22 / 10))) := by
    intro n
    induction n with
    | zero => intro _ s; simp
    | succ n ih =>
      intro hn s
      rw [List.range_succ, List.foldl_append, ih (by omega)]
      simp only [List.foldl]
      rw [foldl_add_const N _ ((N : ℚ) * (11 / 10) * (22 / 10)) _
        (fun j hj => matmul_C_entry N n j (by omega) hj)]
      push_cast; ring
  unfold matmul_checksum
  rw [hrow N (le_refl _) 0]
  ring

/-- C2, amended: over exact rational arithmetic, for every `N` each entry of `C` after the
triple loop of `matmul(N)` is `N * 1.1 * 2.2` and the checksum is `2.42 * N^3`; when
`2.42 * N^3 < 2^31` the routine returns the checksum truncated to an integer, modulo
`1000000`. For `N = 2` each entry is `4.84`, the checksum is `19.36` and `matmul(2)` returns
`19`. -/
theorem matmul_exact :
    (∀ N : Nat,
      (∀ i j, i < N → j < N → grid_get (matmul_C N) i j = (N : ℚ) * (11 / 10) * (22 / 10)) ∧
      matmul_checksum N = (242 / 100) * (N : ℚ) ^ 3 ∧
      ((242 / 100 : ℚ) * (N : ℚ) ^ 3 < 2 ^ 31 →
        matmul N = some (Int.tmod (trunc ((242 / 100 : ℚ) * (N : ℚ) ^ 3)) 1000000))) ∧
    (∀ i j, i < 2 → j < 2 → grid_get (matmul_C 2) i j = 484 / 100) ∧
    matmul_checksum 2 = 1936 / 100 ∧
    matmul 2 = some 19 := by
  have hgen : ∀ N : Nat, (242 / 100 : ℚ) * (N : ℚ) ^ 3 < 2 ^ 31 →
      matmul N = some (Int.tmod (trunc ((242 / 100 : ℚ) * (N : ℚ) ^ 3)) 1000000) := by
    intro N hN
    have h0 : (0 : ℚ) ≤ (242 / 100 : ℚ) * (N : ℚ) ^ 3 := by positivity
    have hc : matmul_checksum N = (242 / 100 : ℚ) * (N : ℚ) ^ 3 := by
      rw [matmul_checksum_eq]; norm_num
    unfold matmul checksum_result
    rw [hc, cast_int_of_nonneg_lt _ h0 (by norm_num at hN ⊢; exact hN), trunc_of_nonneg _ h0]
    rfl
  refine ⟨fun N => ⟨fun i j hi hj => matmul_C_entry N i j hi hj, ?_, hgen N⟩, ?_, ?_, ?_⟩
  · rw [matmul_checksum_eq]; norm_num
  · intro i j hi hj
    rw [matmul_C_entry 2 i j hi hj]; norm_num
  · rw [matmul_checksum_eq]; norm_num
  · rw [hgen 2 (by norm_num)]
    have h0 : (0 : ℚ) ≤ (242 / 100 : ℚ) * ((2 : Nat) : ℚ) ^ 3 := by positivity
    have hfl : ⌊(242 / 100 : ℚ) * ((2 : Nat) : ℚ) ^ 3⌋ = 19 := by
      rw [Int.floor_eq_iff]; norm_num
    rw [trunc_of_nonneg _ h0, hfl]
    rfl

/-- Witness of C2: `N = 3`, whose checksum `65.34` is below `2^31`. -/
theorem matmul_exact_witness :
    matmul 3 = some (Int.tmod (trunc ((242 / 100 : ℚ) * ((3 : Nat) : ℚ) ^ 3)) 1000000) :=
  (matmul_exact.1 3).2.2 (by norm_num)

/-- Counterexample to C2 as stated: for `N = 961` the checksum `2.42 * 961^3` exceeds `2^31`,
the conversion to `int` is undefined and `matmul(961)` does not return the truncated checksum
modulo `1000000`. -/
theorem matmul_961_undefined :
    matmul 961 = none ∧
    ¬ (matmul 961 = some (Int.tmod (trunc ((242 / 100 : ℚ) * ((961 : Nat) : ℚ) ^ 3)) 1000000)) := by
  have h : matmul 961 = none := by
    unfold matmul checksum_result
    rw [matmul_checksum_eq, cast_int_of_ge _ (by norm_num)]
    rfl
  exact ⟨h, by rw [h]; exact fun hh => Option.noConfusion hh⟩

/-! ## Sorting -/

theorem sorted_insert_perm (a : Int) (l : List Int) : List.Perm (sorted_insert a l) (a :: l) := by
  induction l with
  | nil => exact List.Perm.refl _
  | cons b l ih =>
    unfold sorted_insert
    split
    · exact List.Perm.refl _
    · exact (List.Perm.cons b ih).trans (List.Perm.swap a b l)

theorem sorted_insert_sorted (a : Int) (l : List Int) (h : List.Sorted (· ≤ ·) l) :
    List.Sorted (· ≤ ·) (sorted_insert a l) := by
  induction l with
  | nil => exact List.sorted_singleton a
  | cons b l ih =>
    obtain ⟨hb, hl⟩ := List.sorted_cons.mp h
    unfold sorted_insert
    split
    · next hab =>
      refine List.sorted_cons.mpr ⟨fun x hx => ?_, h⟩
      rcases List.mem_cons.mp hx with rfl | hx
      · exact hab
      · exact le_trans hab (hb x hx)
    · next hab =>
      refine List.sorted_cons.mpr ⟨fun x hx => ?_, ih hl⟩
      rcases List.mem_cons.mp ((sorted_insert_perm a l).mem_iff.mp hx) with rfl | hx
      · exact le_of_lt (not_le.mp hab)
      · exact hb x hx

theorem std_sort_perm (l : List Int) : List.Perm (std_sort l) l := by
  induction l with
  | nil => exact List.Perm.refl _
  | cons a l ih => exact (sorted_insert_perm a (std_sort l)).trans (List.Perm.cons a ih)

theorem std_sort_sorted (l : List Int) : List.Sorted (· ≤ ·) (std_sort l) := by
  induction l with
  | nil => exact List.sorted_nil
  | cons a l ih => exact sorted_insert_sorted a (std_sort l) ih

theorem generate_length (n : Nat) (s : MTState) : (generate n s).length = n := by
  induction n generalizing s with
  | zero => rfl
  | succ n ih => simp [generate, ih]

theorem sort_output_length (N : Nat) : (sort_output N).length = N := by
  unfold sort_output
  rw [(std_sort_perm _).length_eq]
  exact generate_length N _

/-- In a non-decreasing list, fewer than `m + 1` entries are below the entry at index `m`, and
at least `m + 1` entries are at most that entry. -/
theorem sorted_order_statistic (l : List Int) (m : Nat) (hm : m < l.length)
    (hs : List.Sorted (· ≤ ·) l) :
    List.countP (fun x => decide (x < l[m])) l ≤ m ∧
    m + 1 ≤ List.countP (fun x => decide (x ≤ l[m])) l := by
  have hget : ∀ i (hi : i < l.length), i ≤ m → l[i] ≤ l[m] := by
    intro i hi him
    exact hs.rel_get_of_le (a := ⟨i, hi⟩) (b := ⟨m, hm⟩) him
  have htake : ∀ x ∈ l.take (m + 1), x ≤ l[m] := by
    intro x hx
    obtain ⟨i, hi, rfl⟩ := List.mem_take_iff_getElem.mp hx
    have : i < m + 1 ∧ i < l.length := by
      rw [Nat.lt_min] at hi; exact hi
    exact hget i this.2 (by omega)
  have hdrop : ∀ x ∈ l.drop m, l[m] ≤ x := by
    intro x hx
    rw [List.drop_eq_getElem_cons hm] at hx
    rcases List.mem_cons.mp hx with rfl | hx
    · exact le_refl _
    · have hmem : l[m] ∈ l.take (m + 1) :=
        List.mem_take_iff_getElem.mpr ⟨m, by rw [Nat.lt_min]; exact ⟨by omega, hm⟩, rfl⟩
      exact hs.rel_of_mem_take_of_mem_drop hmem hx
  constructor
  · have h0 : List.countP (fun x => decide (x < l[m])) (l.drop m) = 0 := by
      rw [List.countP_eq_zero]
      intro x hx
      have := hdrop x hx
      simp only [decide_eq_true_eq, not_lt]
      exact this
    have h1 : List.countP (fun x => decide (x < l[m])) (l.take m) ≤ m :=
      le_trans (List.countP_le_length _) (by rw [List.length_take]; exact Nat.min_le_left _ _)
    have := List.countP_append (fun x => decide (x < l[m])) (l.take m) (l.drop m)
    rw [List.take_append_drop] at this
    omega
  · have h0 : List.countP (fun x => decide (x ≤ l[m])) (l.take (m + 1)) = m + 1 := by
      have hlen : (l.take (m + 1)).length = m + 1 := by
        rw [List.length_take]; exact Nat.min_eq_left (by omega)
      have hall : List.countP (fun x => decide (x ≤ l[m])) (l.take (m + 1))
          = (l.take (m + 1)).length := by
        rw [List.countP_eq_length]
        intro x hx
        simp only [decide_eq_true_eq]
        exact htake x hx
      rw [hall, hlen]
    have := List.countP_append (fun x => decide (x ≤ l[m])) (l.take (m + 1)) (l.drop (m + 1))
    rw [List.take_append_drop] at this
    omega

/-- C3: for every `N`, the array of `sort_bench(N)` holds `N` entries before and after the
sort step, after the sort step it is non-decreasing (`arr[i] ≤ arr[i+1]` for `i + 1 < N`), and
it is a permutation of the `N` generated integers it held before the sort. -/
theorem sort_bench_sorted_perm (N : Nat) :
    (sort_input N).length = N ∧ (sort_output N).length = N ∧
    (∀ i, i + 1 < N → (sort_output N).getD i 0 ≤ (sort_output N).getD (i + 1) 0) ∧
    List.Perm (sort_output N) (sort_input N) := by
  refine ⟨generate_length N _, sort_output_length N, fun i hi => ?_, std_sort_perm _⟩
  have hlen := sort_output_length N
  have h1 : i < (sort_output N).length := by omega
  have h2 : i + 1 < (sort_output N).length := by omega
  rw [List.getD_eq_getElem _ _ h1, List.getD_eq_getElem _ _ h2]
  exact (std_sort_sorted (sort_input N)).rel_get_of_lt (a := ⟨i, h1⟩) (b := ⟨i + 1, h2⟩)
    (by simp)

/-- Witness of C3: the first two entries of the sorted array of `sort_bench(3)`. -/
theorem sort_bench_sorted_perm_witness :
    (sort_output 3).getD 0 0 ≤ (sort_output 3).getD (0 + 1) 0 :=
  (sort_bench_sorted_perm 3).2.2.1 0 (by decide)

/-- C4: for every `N ≥ 1`, `sort_bench(N)` returns a value `v`, the entry at index `N/2` of
the sorted array; `v` is one of the generated integers, at most `N/2` generated integers are
strictly less than `v`, and at least `N/2 + 1` generated integers are at most `v`. -/
theorem sort_bench_median (N : Nat) (hN : 1 ≤ N) :
    ∃ v, sort_bench N = some v ∧ (sort_output N).getD (N / 2) 0 = v ∧
      v ∈ sort_input N ∧
      List.countP (fun x => decide (x < v)) (sort_input N) ≤ N / 2 ∧
      N / 2 + 1 ≤ List.countP (fun x => decide (x ≤ v)) (sort_input N) := by
  have hlen := sort_output_length N
  have hm : N / 2 < (sort_output N).length := by omega
  have hperm : List.Perm (sort_output N) (sort_input N) := std_sort_perm _
  obtain ⟨h1, h2⟩ := sorted_order_statistic (sort_output N) (N / 2) hm
    (std_sort_sorted (sort_input N))
  refine ⟨(sort_output N)[N / 2], ?_, ?_, ?_, ?_, ?_⟩
  · unfold sort_bench
    exact List.getElem?_eq_getElem hm
  · exact List.getD_eq_getElem _ _ hm
  · exact hperm.mem_iff.mp (List.getElem_mem hm)
  · rw [← hperm.countP_eq]; exact h1
  · rw [← hperm.countP_eq]; exact h2

/-- Witness of C4: `sort_bench(1)`. -/
theorem sort_bench_median_witness :
    ∃ v, sort_bench 1 = some v ∧ (sort_output 1).getD (1 / 2) 0 = v ∧
      v ∈ sort_input 1 ∧
      List.countP (fun x => decide (x < v)) (sort_input 1) ≤ 1 / 2 ∧
      1 / 2 + 1 ≤ List.countP (fun x => decide (x ≤ v)) (sort_input 1) :=
  sort_bench_median 1 (by decide)

/-! ## `fft`: the bit-reversal phase -/

theorem bitrev_while_exit (m j : Nat) (h : ¬ (1 ≤ m ∧ m ≤ j)) : bitrev_while m j = (m, j) := by
  rw [bitrev_while, if_neg h]

theorem bitrev_while_step (m j : Nat) (h : 1 ≤ m ∧ m ≤ j) :
    bitrev_while m j = bitrev_while (m / 2) (j - m) := by
  rw [bitrev_while, if_pos h]

theorem rev_bits_lt (k i : Nat) : rev_bits k i < 2 ^ k := by
  induction k generalizing i with
  | zero => simp [rev_bits]
  | succ k ih =>
    unfold rev_bits
    have h1 := ih (i / 2)
    have h2 : i % 2 < 2 := Nat.mod_lt _ (by decide)
    have h3 : i % 2 * 2 ^ k ≤ 1 * 2 ^ k := Nat.mul_le_mul_right _ (by omega)
    rw [pow_succ]
    omega

/-- The tracked index of the bit-reversal loop is incremented in bit-reversed order: from
`j = rev_k(i)` the body of the loop leaves `j = rev_k(i + 1)` (indices modulo `2^k`). -/
theorem bitrev_while_incr (k i : Nat) (hi : i < 2 ^ k) :
    (bitrev_while (2 ^ k / 2) (rev_bits k i)).2 + (bitrev_while (2 ^ k / 2) (rev_bits k i)).1
      = rev_bits k ((i + 1) % 2 ^ k) := by
  induction k generalizing i with
  | zero =>
    rw [bitrev_while_exit _ _ (by simp)]
    simp [rev_bits]
  | succ k ih =>
    have hpos : 0 < 2 ^ k := Nat.pos_pow_of_pos k (by decide)
    have hm : 2 ^ (k + 1) / 2 = 2 ^ k := by rw [pow_succ]; omega
    have hr := rev_bits_lt k (i / 2)
    have hi2 : i / 2 < 2 ^ k := by rw [pow_succ] at hi; omega
    rw [hm]
    rcases Nat.mod_two_eq_zero_or_one i with h0 | h1
    · have hj : rev_bits (k + 1) i = rev_bits k (i / 2) := by
        simp [rev_bits, h0]
      have hlt : i + 1 < 2 ^ (k + 1) := by rw [pow_succ] at hi ⊢; omega
      rw [hj, bitrev_while_exit _ _ (by omega), Nat.mod_eq_of_lt hlt]
      have h3 : (i + 1) % 2 = 1 := by omega
      have h4 : (i + 1) / 2 = i / 2 := by omega
      simp only [rev_bits, h3, h4]
      omega
    · have hj : rev_bits (k + 1) i = 2 ^ k + rev_bits k (i / 2) := by
        simp [rev_bits, h1]
      rw [hj, bitrev_while_step _ _ (by omega)]
      have h5 : 2 ^ k + rev_bits k (i / 2) - 2 ^ k = rev_bits k (i / 2) := by omega
      rw [h5, ih (i / 2) hi2]
      have h6 : ((i + 1) % 2 ^ (k + 1)) % 2 = 0 := by
        rw [pow_succ, Nat.mod_mul_left_mod]; omega
      have h7 : ((i + 1) % 2 ^ (k + 1)) / 2 = (i / 2 + 1) % 2 ^ k := by
        rw [pow_succ, Nat.mul_comm, Nat.mod_mul_right_div_self]
        congr 1; omega
      simp only [rev_bits, h6, h7]
      omega

theorem rev_bits_zero (k : Nat) : rev_bits k 0 = 0 := by
  induction k with
  | zero => rfl
  | succ k ih => simp [rev_bits, ih]

theorem rev_bits_succ_high (k i : Nat) :
    rev_bits (k + 1) i = 2 * rev_bits k (i % 2 ^ k) + i / 2 ^ k % 2 := by
  induction k generalizing i with
  | zero => simp [rev_bits]
  | succ k ih =>
    have h1 : i % 2 ^ (k + 1) % 2 = i % 2 := by
      rw [pow_succ, Nat.mul_comm]; exact Nat.mod_mul_right_mod _ _ _
    have h2 : i % 2 ^ (k + 1) / 2 = i / 2 % 2 ^ k := by
      rw [pow_succ, Nat.mul_comm, Nat.mod_mul_right_div_self]
    have h3 : i / 2 / 2 ^ k = i / 2 ^ (k + 1) := by
      rw [Nat.div_div_eq_div_mul, pow_succ, Nat.mul_comm]
    rw [rev_bits, ih (i / 2), rev_bits, h1, h2, h3, pow_succ]
    ring

theorem rev_bits_invol (k i : Nat) (hi : i < 2 ^ k) : rev_bits k (rev_bits k i) = i := by
  induction k generalizing i with
  | zero => simp [rev_bits]; omega
  | succ k ih =>
    have hpos : 0 < 2 ^ k := Nat.pos_pow_of_pos k (by decide)
    have hr := rev_bits_lt k (i / 2)
    have hi2 : i / 2 < 2 ^ k := by rw [pow_succ] at hi; omega
    have hb : i % 2 < 2 := Nat.mod_lt _ (by decide)
    have hj : rev_bits (k + 1) i = i % 2 * 2 ^ k + rev_bits k (i / 2) := rfl
    have h1 : (i % 2 * 2 ^ k + rev_bits k (i / 2)) % 2 ^ k = rev_bits k (i / 2) := by
      rw [Nat.add_comm, Nat.add_mul_mod_self_right, Nat.mod_eq_of_lt hr]
    have h2 : (i % 2 * 2 ^ k + rev_bits k (i / 2)) / 2 ^ k = i % 2 := by
      rw [Nat.add_comm, Nat.add_mul_div_right _ _ hpos, Nat.div_eq_of_lt hr, Nat.zero_add]
    rw [rev_bits_succ_high, hj, h1, h2, ih (i / 2) hi2, Nat.mod_mod]
    omega

theorem swap_length {R : Type} [Zero R] (x : List R) (i j : Nat) :
    (swap x i j).length = x.length := by
  simp [swap]

theorem swap_getD {R : Type} [Zero R] (x : List R) (i j a : Nat) (hi : i < x.length)
    (hj : j < x.length) :
    (swap x i j).getD a 0
      = if a = j then x.getD i 0 else if a = i then x.getD j 0 else x.getD a 0 := by
  unfold swap
  rw [getD_set_eq, getD_set_eq, List.length_set]
  by_cases h1 : a = j
  · have c1 : j = a ∧ j < x.length := ⟨h1.symm, hj⟩
    rw [if_pos c1, if_pos h1]
  · have c1 : ¬ (j = a ∧ j < x.length) := fun h => h1 h.1.symm
    rw [if_neg c1, if_neg h1]
    by_cases h2 : a = i
    · have c2 : i = a ∧ i < x.length := ⟨h2.symm, hi⟩
      rw [if_pos c2, if_pos h2]
    · have c2 : ¬ (i = a ∧ i < x.length) := fun h => h2 h.1.symm
      rw [if_neg c2, if_neg h2]

/-- The invariant of the bit-reversal loop of `fft` on an array of `2^k` entries, after `c`
rounds. -/
theorem bitrev_loop_inv {R : Type} [Zero R] (k : Nat) (x : List R) (hx : x.length = 2 ^ k)
    (c : Nat) (hc : c ≤ 2 ^ k) :
    (bitrev_loop (2 ^ k) c x).j = rev_bits k (c % 2 ^ k) ∧
    (bitrev_loop (2 ^ k) c x).x.length = 2 ^ k ∧
    (∀ a, a < 2 ^ k → (bitrev_loop (2 ^ k) c x).x.getD a 0 =
      if a < c ∨ rev_bits k a < c then x.getD (rev_bits k a) 0 else x.getD a 0) ∧
    (bitrev_loop (2 ^ k) c x).swaps =
      ((List.range c).filter (fun i => decide (i < rev_bits k i))).map
        (fun i => (i, rev_bits k i)) := by
  have hpos : 0 < 2 ^ k := Nat.pos_pow_of_pos k (by decide)
  induction c with
  | zero =>
    refine ⟨?_, hx, fun a _ => ?_, rfl⟩
    · rw [Nat.zero_mod, rev_bits_zero]; rfl
    · have h0 : ¬ (a < 0 ∨ rev_bits k a < 0) := by omega
      rw [if_neg h0]; rfl
  | succ c ih =>
    obtain ⟨ih1, ih2, ih3, ih4⟩ := ih (by omega)
    have hc' : c < 2 ^ k := by omega
    rw [Nat.mod_eq_of_lt hc'] at ih1
    unfold bitrev_loop at ih1 ih2 ih3 ih4 ⊢
    rw [List.range_succ, List.foldl_append]
    simp only [List.foldl]
    generalize (List.range c).foldl (bitrev_step (2 ^ k)) { x := x, j := 0, swaps := [] } = st
      at ih1 ih2 ih3 ih4 ⊢
    have hrc := rev_bits_lt k c
    simp only [bitrev_step, ih1]
    refine ⟨bitrev_while_incr k c hc', ?_, fun a ha => ?_, ?_⟩
    · split
      · rw [swap_length, ih2]
      · exact ih2
    · have hra := rev_bits_lt k a
      by_cases hlt : c < rev_bits k c
      · rw [if_pos hlt, swap_getD _ _ _ _ (by omega) (by omega)]
        by_cases ha1 : a = rev_bits k c
        · have hinv : rev_bits k a = c := by rw [ha1]; exact rev_bits_invol k c hc'
          have h1 : ¬ (c < c ∨ rev_bits k c < c) := by omega
          have h2 : a < c + 1 ∨ rev_bits k a < c + 1 := by omega
          rw [if_pos ha1, ih3 c hc', if_neg h1, if_pos h2, hinv]
        · rw [if_neg ha1]
          by_cases ha2 : a = c
          · have h1 : ¬ (rev_bits k c < c ∨ rev_bits k (rev_bits k c) < c) := by
              rw [rev_bits_invol k c hc']; omega
            have h2 : a < c + 1 ∨ rev_bits k a < c + 1 := by omega
            rw [if_pos ha2, ih3 _ hrc, if_neg h1, if_pos h2, ha2]
          · rw [if_neg ha2, ih3 a ha]
            have hne : rev_bits k a ≠ c := by
              intro h
              apply ha1
              rw [← h, rev_bits_invol k a ha]
            by_cases h3 : a < c ∨ rev_bits k a < c
            · have h4 : a < c + 1 ∨ rev_bits k a < c + 1 := by omega
              rw [if_pos h3, if_pos h4]
            · have h4 : ¬ (a < c + 1 ∨ rev_bits k a < c + 1) := by omega
              rw [if_neg h3, if_neg h4]
      · rw [if_neg hlt, ih3 a ha]
        by_cases h3 : a < c ∨ rev_bits k a < c
        · have h4 : a < c + 1 ∨ rev_bits k a < c + 1 := by omega
          rw [if_pos h3, if_pos h4]
        · by_cases ha2 : a = c
          · have h4 : a < c + 1 ∨ rev_bits k a < c + 1 := by omega
            have h5 : rev_bits k c = c := by
              rw [ha2] at h3; omega
            rw [if_neg h3, if_pos h4, ha2, h5]
          · have hne : rev_bits k a ≠ c := by
              intro h
              have : rev_bits k c = a := by rw [← h, rev_bits_invol k a ha]
              omega
            have h4 : ¬ (a < c + 1 ∨ rev_bits k a < c + 1) := by omega
            rw [if_neg h3, if_neg h4]
    · rw [List.filter_append, List.map_append, ← ih4]
      by_cases hlt : c < rev_bits k c
      · rw [if_pos hlt]
        simp [List.filter, hlt]
      · rw [if_neg hlt]
        simp [List.filter, hlt]

/-- Bit `b` of `rev_bits k i` is bit `k - 1 - b` of `i`: `rev_bits k` reverses the `k` low
bits. -/
theorem rev_bits_testBit (k i b : Nat) (hb : b < k) :
    (rev_bits k i).testBit b = i.testBit (k - 1 - b) := by
  induction k generalizing i b with
  | zero => omega
  | succ k ih =>
    have hr := rev_bits_lt k (i / 2)
    have h : rev_bits (k + 1) i = 2 ^ k * (i % 2) + rev_bits k (i / 2) := by
      rw [rev_bits, Nat.mul_comm]
    rw [h, Nat.testBit_mul_pow_two_add _ hr]
    by_cases hbk : b < k
    · rw [if_pos hbk, ih (i / 2) b hbk]
      have : k + 1 - 1 - b = (k - 1 - b) + 1 := by omega
      rw [this, Nat.testBit_succ]
    · have hbk' : b = k := by omega
      rw [if_neg hbk, hbk']
      simp only [Nat.sub_self, Nat.add_sub_cancel]
      rcases Nat.mod_two_eq_zero_or_one i with h0 | h1
      · rw [h0]; simp [Nat.testBit_zero, h0]
      · rw [h1]; simp [Nat.testBit_zero, h1]

/-- C7: on an array of `N = 2^k` entries, at the start of round `i` of the bit-reversal loop
of `fft` the tracked index `j` is the `k`-bit reversal of `i`; after the loop the array has
`N` entries and the entry initially at index `i` is at index `rev_k(i)`; the swaps performed
are exactly the pairs `(i, rev_k(i))` with `i < rev_k(i)`, each once, in increasing order of
`i`. -/
theorem fft_bit_reversal {R : Type} [Zero R] (k : Nat) (x : List R) (hx : x.length = 2 ^ k) :
    (∀ i, i < 2 ^ k → (bitrev_loop (2 ^ k) i x).j = rev_bits k i) ∧
    (bitrev_loop (2 ^ k) (2 ^ k) x).x.length = 2 ^ k ∧
    (∀ i, i < 2 ^ k → (bitrev_loop (2 ^ k) (2 ^ k) x).x.getD (rev_bits k i) 0 = x.getD i 0) ∧
    (bitrev_loop (2 ^ k) (2 ^ k) x).swaps =
      ((List.range (2 ^ k)).filter (fun i => decide (i < rev_bits k i))).map
        (fun i => (i, rev_bits k i)) ∧
    (∀ i b, b < k → (rev_bits k i).testBit b = i.testBit (k - 1 - b)) := by
  obtain ⟨_, h2, h3, h4⟩ := bitrev_loop_inv k x hx (2 ^ k) (le_refl _)
  refine ⟨fun i hi => ?_, h2, fun i hi => ?_, h4, fun i b hb => rev_bits_testBit k i b hb⟩
  · rw [(bitrev_loop_inv k x hx i (by omega)).1, Nat.mod_eq_of_lt hi]
  · have hr := rev_bits_lt k i
    rw [h3 _ hr, if_pos (Or.inl hr), rev_bits_invol k i hi]

/-- Witness of C7: an array of four entries. -/
theorem fft_bit_reversal_witness :
    (∀ i, i < 2 ^ 2 → (bitrev_loop (2 ^ 2) i [(10 : Int), 11, 12, 13]).j = rev_bits 2 i) ∧
    (bitrev_loop (2 ^ 2) (2 ^ 2) [(10 : Int), 11, 12, 13]).x.length = 2 ^ 2 ∧
    (∀ i, i < 2 ^ 2 → (bitrev_loop (2 ^ 2) (2 ^ 2) [(10 : Int), 11, 12, 13]).x.getD
      (rev_bits 2 i) 0 = [(10 : Int), 11, 12, 13].getD i 0) ∧
    (bitrev_loop (2 ^ 2) (2 ^ 2) [(10 : Int), 11, 12, 13]).swaps =
      ((List.range (2 ^ 2)).filter (fun i => decide (i < rev_bits 2 i))).map
        (fun i => (i, rev_bits 2 i)) ∧
    (∀ i b, b < 2 → (rev_bits 2 i).testBit b = i.testBit (2 - 1 - b)) :=
  fft_bit_reversal 2 [(10 : Int), 11, 12, 13] (by decide)

/-! ## `fft` on one sample -/

theorem ctz_one : ctz 1 = 0 := by
  rw [ctz]; simp

/-- C9: for `N = 1` the input of `fft` is the single sample `0`, the bit-reversal loop performs
no swap and leaves the array as it is, the stage loop runs through no stage, the output array
equals the input array, and, the magnitude of `0` being `0`, `fft(1)` returns `0`. -/
theorem fft_one {R K : Type} [CommRing R] [LinearOrderedField K] [FloorRing K]
    (twiddle : Nat → R) (mag : R → K) (hmag : mag 0 = 0) :
    fft_input R 1 = [0] ∧
    (bitrev_loop 1 1 (fft_input R 1)).swaps = [] ∧
    (bitrev_loop 1 1 (fft_input R 1)).x = fft_input R 1 ∧
    fft_stages 1 = [] ∧
    fft_output twiddle 1 = fft_input R 1 ∧
    fft twiddle mag 1 = some 0 := by
  have hr1 : List.range 1 = [0] := rfl
  have hin : fft_input R 1 = [0] := by simp [fft_input, hr1]
  have hst : fft_stages 1 = [] := by simp [fft_stages, ctz_one]
  have hbr : (bitrev_loop 1 1 (fft_input R 1)).x = fft_input R 1 := by
    simp [bitrev_loop, bitrev_step, hr1]
  have hout : fft_output twiddle 1 = fft_input R 1 := by
    unfold fft_output
    rw [hst, hbr]; rfl
  refine ⟨hin, ?_, hbr, hst, hout, ?_⟩
  · simp [bitrev_loop, bitrev_step, hr1]
  · have hc : fft_checksum twiddle mag 1 = 0 := by
      unfold fft_checksum
      rw [hout, hin]
      simp [hmag, hr1]
    unfold fft checksum_result
    rw [hc, cast_int_of_nonneg_lt 0 (le_refl _) (by norm_num)]
    simp

/-- Witness of C9: `fft(1)` over the complex numbers, with the exponential and the absolute
value of the complex numbers. -/
theorem fft_one_witness :
    fft (fun m => Complex.exp (Complex.mk 0 (-2 * Real.pi / (m : ℝ))))
      (fun z => Complex.abs z) 1 = some 0 :=
  (fft_one (fun m => Complex.exp (Complex.mk 0 (-2 * Real.pi / (m : ℝ))))
    (fun z => Complex.abs z) (by simp)).2.2.2.2.2

/-! ## `fft`: one butterfly stage on the array -/

theorem fft_butterfly_spec {R : Type} [CommRing R] (wm : R) (m k j : Nat) (st : List R × R)
    (h : k + j + m / 2 < st.1.length) :
    (fft_butterfly wm m k st j).2 = st.2 * wm ∧
    (fft_butterfly wm m k st j).1.length = st.1.length ∧
    ∀ a, (fft_butterfly wm m k st j).1.getD a 0 =
      if a = k + j + m / 2 then st.1.getD (k + j) 0 - st.2 * st.1.getD (k + j + m / 2) 0
      else if a = k + j then st.1.getD (k + j) 0 + st.2 * st.1.getD (k + j + m / 2) 0
      else st.1.getD a 0 := by
  refine ⟨rfl, by simp [fft_butterfly], fun a => ?_⟩
  simp only [fft_butterfly]
  rw [getD_set_eq, getD_set_eq, List.length_set]
  by_cases h1 : a = k + j + m / 2
  · have c1 : k + j + m / 2 = a ∧ k + j + m / 2 < st.1.length := ⟨h1.symm, h⟩
    rw [if_pos c1, if_pos h1]
  · have c1 : ¬ (k + j + m / 2 = a ∧ k + j + m / 2 < st.1.length) := fun hh => h1 hh.1.symm
    rw [if_neg c1, if_neg h1]
    by_cases h2 : a = k + j
    · have c2 : k + j = a ∧ k + j < st.1.length := ⟨h2.symm, by omega⟩
      rw [if_pos c2, if_pos h2]
    · have c2 : ¬ (k + j = a ∧ k + j < st.1.length) := fun hh => h2 hh.1.symm
      rw [if_neg c2, if_neg h2]

/-- The effect of the first `h` butterflies of the block that starts at `k`. -/
theorem fft_block_fold {R : Type} [CommRing R] (wm : R) (m k : Nat) (x : List R) (h : Nat)
    (hh : h ≤ m / 2) (hlen : k + m / 2 + m / 2 ≤ x.length) :
    ((List.range h).foldl (fft_butterfly wm m k) (x, 1)).2 = wm ^ h ∧
    ((List.range h).foldl (fft_butterfly wm m k) (x, 1)).1.length = x.length ∧
    ∀ a, ((List.range h).foldl (fft_butterfly wm m k) (x, 1)).1.getD a 0 =
      if k ≤ a ∧ a < k + h then x.getD a 0 + wm ^ (a - k) * x.getD (a + m / 2) 0
      else if k + m / 2 ≤ a ∧ a < k + m / 2 + h then
        x.getD (a - m / 2) 0 - wm ^ (a - k - m / 2) * x.getD a 0
      else x.getD a 0 := by
  induction h with
  | zero =>
    refine ⟨by simp, rfl, fun a => ?_⟩
    have c1 : ¬ (k ≤ a ∧ a < k + 0) := by omega
    have c2 : ¬ (k + m / 2 ≤ a ∧ a < k + m / 2 + 0) := by omega
    rw [if_neg c1, if_neg c2]; rfl
  | succ h ih =>
    obtain ⟨ih1, ih2, ih3⟩ := ih (by omega)
    rw [List.range_succ, List.foldl_append]
    simp only [List.foldl]
    generalize (List.range h).foldl (fft_butterfly wm m k) (x, 1) = st at ih1 ih2 ih3 ⊢
    obtain ⟨b1, b2, b3⟩ := fft_butterfly_spec wm m k h st (by omega)
    refine ⟨by rw [b1, ih1, pow_succ], by rw [b2, ih2], fun a => ?_⟩
    have e1 : st.1.getD (k + h) 0 = x.getD (k + h) 0 := by
      have c1 : ¬ (k ≤ k + h ∧ k + h < k + h) := by omega
      have c2 : ¬ (k + m / 2 ≤ k + h ∧ k + h < k + m / 2 + h) := by omega
      rw [ih3, if_neg c1, if_neg c2]
    have e2 : st.1.getD (k + h + m / 2) 0 = x.getD (k + h + m / 2) 0 := by
      have c1 : ¬ (k ≤ k + h + m / 2 ∧ k + h + m / 2 < k + h) := by omega
      have c2 : ¬ (k + m / 2 ≤ k + h + m / 2 ∧ k + h + m / 2 < k + m / 2 + h) := by omega
      rw [ih3, if_neg c1, if_neg c2]
    rw [b3, e1, e2, ih1]
    by_cases h1 : a = k + h + m / 2
    · have c1 : ¬ (k ≤ a ∧ a < k + (h + 1)) := by omega
      have c2 : k + m / 2 ≤ a ∧ a < k + m / 2 + (h + 1) := by omega
      have e3 : a - m / 2 = k + h := by omega
      have e4 : a - k - m / 2 = h := by omega
      rw [if_pos h1, if_neg c1, if_pos c2, e3, e4, h1]
    · rw [if_neg h1]
      by_cases h2 : a = k + h
      · have c1 : k ≤ a ∧ a < k + (h + 1) := by omega
        have e4 : a - k = h := by omega
        rw [if_pos h2, if_pos c1, e4, h2]
      · rw [if_neg h2, ih3]
        by_cases h3 : k ≤ a ∧ a < k + h
        · have c1 : k ≤ a ∧ a < k + (h + 1) := by omega
          rw [if_pos h3, if_pos c1]
        · have c1 : ¬ (k ≤ a ∧ a < k + (h + 1)) := by omega
          rw [if_neg h3, if_neg c1]
          by_cases h4 : k + m / 2 ≤ a ∧ a < k + m / 2 + h
          · have c2 : k + m / 2 ≤ a ∧ a < k + m / 2 + (h + 1) := by omega
            rw [if_pos h4, if_pos c2]
          · have c2 : ¬ (k + m / 2 ≤ a ∧ a < k + m / 2 + (h + 1)) := by omega
            rw [if_neg h4, if_neg c2]

theorem two_pow_half (s : Nat) (hs : 1 ≤ s) : 2 ^ s / 2 + 2 ^ s / 2 = 2 ^ s := by
  obtain ⟨t, rfl⟩ : ∃ t, s = t + 1 := ⟨s - 1, by omega⟩
  rw [pow_succ]; omega

/-- The effect of the loop over the blocks of a stage, from the block that starts at `k` on:
the entries from `k` on are replaced by their `stage_map`. -/
theorem fft_kloop_spec {R : Type} [CommRing R] (wm : R) (n s : Nat) (hs : 1 ≤ s) (c : Nat) :
    ∀ (k : Nat) (x : List R), k % 2 ^ s = 0 → k + c * 2 ^ s = n → x.length = n →
      (fft_kloop wm n s k x).length = n ∧
      ∀ a, (fft_kloop wm n s k x).getD a 0 =
        if k ≤ a ∧ a < n then stage_map wm (2 ^ s) x a else x.getD a 0 := by
  have hM := two_pow_half s hs
  have hpos : 0 < 2 ^ s := Nat.pos_pow_of_pos s (by decide)
  induction c with
  | zero =>
    intro k x _ hk hx
    rw [fft_kloop, if_neg (by omega)]
    refine ⟨hx, fun a => ?_⟩
    have c1 : ¬ (k ≤ a ∧ a < n) := by omega
    rw [if_neg c1]
  | succ c ih =>
    intro k x hkm hk hx
    have hkn : k + 2 ^ s ≤ n := by
      have : (c + 1) * 2 ^ s = c * 2 ^ s + 2 ^ s := by ring
      omega
    rw [fft_kloop, if_pos (by omega)]
    obtain ⟨_, b2, b3⟩ := fft_block_fold wm (2 ^ s) k x (2 ^ s / 2) (le_refl _) (by omega)
    have hk' : (k + 2 ^ s) % 2 ^ s = 0 := by
      rw [Nat.add_mod_right]; exact hkm
    have hk2 : k + 2 ^ s + c * 2 ^ s = n := by
      have : (c + 1) * 2 ^ s = c * 2 ^ s + 2 ^ s := by ring
      omega
    obtain ⟨r1, r2⟩ := ih (k + 2 ^ s) (fft_block wm (2 ^ s) k x) hk' hk2 (by
      unfold fft_block; rw [b2, hx])
    refine ⟨r1, fun a => ?_⟩
    rw [r2]
    unfold fft_block
    by_cases h1 : k + 2 ^ s ≤ a ∧ a < n
    · have c1 : k ≤ a ∧ a < n := by omega
      rw [if_pos h1, if_pos c1]
      have hmod : a % 2 ^ s = (a - (k + 2 ^ s)) % 2 ^ s := by
        have h3 : a = (a - (k + 2 ^ s)) + (k + 2 ^ s) := by omega
        conv_lhs => rw [h3, Nat.add_mod, hk', Nat.add_zero, Nat.mod_mod]
      have hle : (a - (k + 2 ^ s)) % 2 ^ s ≤ a - (k + 2 ^ s) := Nat.mod_le _ _
      have ea : ∀ a', k + 2 ^ s ≤ a' →
          ((List.range (2 ^ s / 2)).foldl (fft_butterfly wm (2 ^ s) k) (x, 1)).1.getD a' 0
            = x.getD a' 0 := by
        intro a' ha'
        have d1 : ¬ (k ≤ a' ∧ a' < k + 2 ^ s / 2) := by omega
        have d2 : ¬ (k + 2 ^ s / 2 ≤ a' ∧ a' < k + 2 ^ s / 2 + 2 ^ s / 2) := by omega
        rw [b3, if_neg d1, if_neg d2]
      unfold stage_map
      by_cases h2 : a % 2 ^ s < 2 ^ s / 2
      · rw [if_pos h2, if_pos h2, ea a (by omega), ea (a + 2 ^ s / 2) (by omega)]
      · rw [if_neg h2, if_neg h2, ea a (by omega), ea (a - 2 ^ s / 2) (by omega)]
    · rw [if_neg h1, b3]
      by_cases h2 : k ≤ a ∧ a < k + 2 ^ s / 2
      · have c1 : k ≤ a ∧ a < n := by omega
        have hmod : a % 2 ^ s = a - k := by
          have h3 : a = (a - k) + k := by omega
          conv_lhs => rw [h3, Nat.add_mod, hkm, Nat.add_zero, Nat.mod_mod]
          exact Nat.mod_eq_of_lt (by omega)
        have c2 : a % 2 ^ s < 2 ^ s / 2 := by omega
        rw [if_pos h2, if_pos c1]
        unfold stage_map
        rw [if_pos c2, hmod]
      · rw [if_neg h2]
        by_cases h3 : k + 2 ^ s / 2 ≤ a ∧ a < k + 2 ^ s / 2 + 2 ^ s / 2
        · have c1 : k ≤ a ∧ a < n := by omega
          have hmod : a % 2 ^ s = a - k := by
            have h3 : a = (a - k) + k := by omega
            conv_lhs => rw [h3, Nat.add_mod, hkm, Nat.add_zero, Nat.mod_mod]
            exact Nat.mod_eq_of_lt (by omega)
          have c2 : ¬ (a % 2 ^ s < 2 ^ s / 2) := by omega
          rw [if_pos h3, if_pos c1]
          unfold stage_map
          rw [if_neg c2, hmod]
        · have c1 : ¬ (k ≤ a ∧ a < n) := by omega
          rw [if_neg h3, if_neg c1]

/-- The effect of stage `s ≥ 1` of `fft` on an array of `n` entries, `2^s` dividing `n`. -/
theorem fft_stage_spec {R : Type} [CommRing R] (twiddle : Nat → R) (n s : Nat) (hs : 1 ≤ s)
    (hdvd : 2 ^ s ∣ n) (x : List R) (hx : x.length = n) :
    (fft_stage twiddle n x s).length = n ∧
    ∀ a, a < n → (fft_stage twiddle n x s).getD a 0 = stage_map (twiddle (2 ^ s)) (2 ^ s) x a := by
  obtain ⟨c, hc⟩ := hdvd
  obtain ⟨r1, r2⟩ := fft_kloop_spec (twiddle (2 ^ s)) n s hs c 0 x (Nat.zero_mod _)
    (by rw [hc, Nat.mul_comm]; omega) hx
  refine ⟨r1, fun a ha => ?_⟩
  unfold fft_stage
  rw [r2, if_pos ⟨Nat.zero_le _, ha⟩]

/-! ## `fft`: the butterfly stages compute the transform -/

theorem rev_bits_even (s q : Nat) : rev_bits (s + 1) (2 * q) = rev_bits s q := by
  have h1 : 2 * q % 2 = 0 := by omega
  have h2 : 2 * q / 2 = q := by omega
  simp [rev_bits, h1, h2]

theorem rev_bits_odd (s q : Nat) : rev_bits (s + 1) (2 * q + 1) = 2 ^ s + rev_bits s q := by
  have h1 : (2 * q + 1) % 2 = 1 := by omega
  have h2 : (2 * q + 1) / 2 = q := by omega
  simp [rev_bits, h1, h2]

theorem sum_range_even_odd {R : Type} [CommRing R] (m : Nat) (f : Nat → R) :
    ∑ q in Finset.range (2 * m), f q
      = ∑ q in Finset.range m, f (2 * q) + ∑ q in Finset.range m, f (2 * q + 1) := by
  induction m with
  | zero => simp
  | succ m ih =>
    have h : 2 * (m + 1) = 2 * m + 1 + 1 := by ring
    rw [h, Finset.sum_range_succ, Finset.sum_range_succ, ih, Finset.sum_range_succ,
      Finset.sum_range_succ]
    ring

/-- One butterfly stage turns the transforms of the blocks of `2^s` entries into the
transforms of the blocks of `2^(s+1)` entries. -/
theorem stage_map_block_dft {R : Type} [CommRing R] (w w' : R) (s n : Nat) (x : List R)
    (y : Nat → R) (hw : w' ^ 2 = w) (hneg : w' ^ (2 ^ s) = -1) (hdvd : 2 ^ (s + 1) ∣ n)
    (hx : ∀ a, a < n → x.getD a 0 = block_dft w s y a) (a : Nat) (ha : a < n) :
    stage_map w' (2 ^ (s + 1)) x a = block_dft w' (s + 1) y a := by
  have hpos : 0 < 2 ^ s := Nat.pos_pow_of_pos s (by decide)
  have hM : 2 ^ (s + 1) = 2 * 2 ^ s := by rw [pow_succ, Nat.mul_comm]
  have hhalf : 2 ^ (s + 1) / 2 = 2 ^ s := by omega
  have hone : w' ^ (2 * 2 ^ s) = 1 := by
    rw [Nat.mul_comm, pow_mul, hneg]; ring
  generalize hm : 2 ^ s = m at *
  -- the block of `a` lies inside the array
  have hr : a % (2 * m) < 2 * m := Nat.mod_lt _ (by omega)
  have hdr : a % (2 * m) + 2 * m * (a / (2 * m)) = a := Nat.mod_add_div a (2 * m)
  have hblock : 2 * m * (a / (2 * m)) + 2 * m ≤ n := by
    obtain ⟨c, hc⟩ := hdvd
    rw [hM] at hc
    have h1 : a / (2 * m) < c := by
      rw [Nat.div_lt_iff_lt_mul (by omega), Nat.mul_comm]; omega
    have h2 : 2 * m * (a / (2 * m) + 1) ≤ 2 * m * c := Nat.mul_le_mul_left _ h1
    rw [hc]
    have h3 : 2 * m * (a / (2 * m) + 1) = 2 * m * (a / (2 * m)) + 2 * m := by ring
    omega
  generalize hd : a / (2 * m) = d at *
  generalize hrr : a % (2 * m) = r at *
  have hpw : ∀ e : Nat, w' ^ (2 * e) = w ^ e := by
    intro e; rw [pow_mul, hw]
  unfold stage_map block_dft
  rw [hM, hd, hrr, sum_range_even_odd]
  have hhalf' : 2 * m / 2 = m := by omega
  rw [hhalf']
  have q1 : 2 * m * d = 2 * (m * d) := by ring
  have q2 : m * (2 * d) = 2 * (m * d) := by ring
  have q3 : m * (2 * d + 1) = 2 * (m * d) + m := by ring
  by_cases hlt : r < m
  · rw [if_pos hlt, hx a ha, hx (a + m) (by omega)]
    obtain ⟨e1, e2⟩ := (Nat.div_mod_unique (by omega : 0 < m)).mpr
      ⟨(by omega : r + m * (2 * d) = a), hlt⟩
    obtain ⟨e3, e4⟩ := (Nat.div_mod_unique (by omega : 0 < m)).mpr
      ⟨(by omega : r + m * (2 * d + 1) = a + m), hlt⟩
    unfold block_dft
    rw [hm, e1, e2, e3, e4, Finset.mul_sum]
    congr 1
    · apply Finset.sum_congr rfl
      intro q _
      rw [rev_bits_even, ← hpw]
      congr 2
      · ring
      · ring
    · apply Finset.sum_congr rfl
      intro q _
      rw [rev_bits_odd, hm]
      have hp : w' ^ ((2 * q + 1) * r) = w' ^ r * w ^ (q * r) := by
        rw [← hpw, ← pow_add]; congr 1; ring
      rw [hp]
      have hi : d * (2 * m) + (m + rev_bits s q) = (2 * d + 1) * m + rev_bits s q := by ring
      rw [hi]
      ring
  · rw [if_neg hlt, hx a ha, hx (a - m) (by omega)]
    have hge : m ≤ r := by omega
    obtain ⟨e1, e2⟩ := (Nat.div_mod_unique (by omega : 0 < m)).mpr
      ⟨(by omega : (r - m) + m * (2 * d + 1) = a), (by omega : r - m < m)⟩
    obtain ⟨e3, e4⟩ := (Nat.div_mod_unique (by omega : 0 < m)).mpr
      ⟨(by omega : (r - m) + m * (2 * d) = a - m), (by omega : r - m < m)⟩
    unfold block_dft
    rw [hm, e1, e2, e3, e4, sub_eq_add_neg, ← neg_mul, Finset.mul_sum]
    have hrm : r = m + (r - m) := by omega
    congr 1
    · apply Finset.sum_congr rfl
      intro q _
      rw [rev_bits_even]
      have hp : w' ^ (2 * q * r) = w ^ (q * (r - m)) := by
        rw [← hpw]
        conv_lhs => rw [hrm]
        have : 2 * q * (m + (r - m)) = 2 * m * q + 2 * (q * (r - m)) := by ring
        rw [this, pow_add, pow_mul, hone, one_pow, one_mul]
      rw [hp]
      congr 2
      ring
    · apply Finset.sum_congr rfl
      intro q _
      rw [rev_bits_odd, hm]
      have hp : w' ^ ((2 * q + 1) * r) = -w' ^ (r - m) * w ^ (q * (r - m)) := by
        rw [← hpw]
        conv_lhs => rw [hrm]
        have : (2 * q + 1) * (m + (r - m)) = 2 * m * q + m + ((r - m) + 2 * (q * (r - m))) := by
          ring
        rw [this, pow_add, pow_add, pow_mul, hone, one_pow, one_mul, hneg, pow_add]
        ring
      rw [hp]
      have hi : d * (2 * m) + (m + rev_bits s q) = (2 * d + 1) * m + rev_bits s q := by ring
      rw [hi]
      ring

theorem ctz_two_pow (k : Nat) : ctz (2 ^ k) = k := by
  induction k with
  | zero => exact ctz_one
  | succ k ih =>
    have hpos : 0 < 2 ^ k := Nat.pos_pow_of_pos k (by decide)
    have h1 : 2 ^ (k + 1) ≠ 0 := by rw [pow_succ]; omega
    have h2 : ¬ (2 ^ (k + 1) % 2 = 1) := by rw [pow_succ]; omega
    have h3 : 2 ^ (k + 1) / 2 = 2 ^ k := by rw [pow_succ]; omega
    rw [ctz, if_neg h1, if_neg h2, h3, ih]

theorem fft_stages_two_pow (k : Nat) : fft_stages (2 ^ k) = List.range' 1 k := by
  unfold fft_stages; rw [ctz_two_pow]

theorem fft_input_length (R : Type) [CommRing R] (N : Nat) : (fft_input R N).length = N := by
  simp [fft_input]

theorem fft_input_getD (R : Type) [CommRing R] (N i : Nat) (hi : i < N) :
    (fft_input R N).getD i 0 = ((i % 256 : Nat) : R) := by
  unfold fft_input
  rw [List.getD_eq_getElem _ _ (by simpa using hi)]
  simp

/-- After the stages `1, ..., t` every block of `2^t` entries holds the transform of the
corresponding block of the array `y` the stages started from. -/
theorem fft_stages_fold {R : Type} [CommRing R] (twiddle : Nat → R) (k : Nat) (y : List R)
    (hy : y.length = 2 ^ k)
    (htw : ∀ s, s < k → twiddle (2 ^ (s + 1)) ^ 2 = twiddle (2 ^ s))
    (hneg : ∀ s, s < k → twiddle (2 ^ (s + 1)) ^ (2 ^ s) = -1) (t : Nat) (ht : t ≤ k) :
    ((List.range' 1 t).foldl (fft_stage twiddle (2 ^ k)) y).length = 2 ^ k ∧
    ∀ a, a < 2 ^ k → ((List.range' 1 t).foldl (fft_stage twiddle (2 ^ k)) y).getD a 0
      = block_dft (twiddle (2 ^ t)) t (fun i => y.getD i 0) a := by
  induction t with
  | zero =>
    refine ⟨hy, fun a _ => ?_⟩
    simp [block_dft, rev_bits]
  | succ t ih =>
    obtain ⟨ih1, ih2⟩ := ih (by omega)
    rw [List.range'_concat, List.foldl_append]
    simp only [List.foldl, Nat.one_mul]
    generalize (List.range' 1 t).foldl (fft_stage twiddle (2 ^ k)) y = x at ih1 ih2 ⊢
    have hdvd : 2 ^ (1 + t) ∣ 2 ^ k := pow_dvd_pow 2 (by omega)
    obtain ⟨r1, r2⟩ := fft_stage_spec twiddle (2 ^ k) (1 + t) (by omega) hdvd x ih1
    refine ⟨r1, fun a ha => ?_⟩
    rw [r2 a ha]
    have e : 1 + t = t + 1 := by omega
    rw [e] at hdvd ⊢
    exact stage_map_block_dft (twiddle (2 ^ t)) (twiddle (2 ^ (t + 1))) t (2 ^ k) x
      (fun i => y.getD i 0) (htw t (by omega)) (hneg t (by omega)) hdvd ih2 a ha

/-- The array of `fft(2^k)` after the stage loop is the discrete Fourier transform of the
samples, for any twiddle factors that are compatible roots of unity. -/
theorem fft_output_dft {R : Type} [CommRing R] (twiddle : Nat → R) (k : Nat)
    (htw : ∀ s, s < k → twiddle (2 ^ (s + 1)) ^ 2 = twiddle (2 ^ s))
    (hneg : ∀ s, s < k → twiddle (2 ^ (s + 1)) ^ (2 ^ s) = -1) :
    (fft_output twiddle (2 ^ k)).length = 2 ^ k ∧
    ∀ p, p < 2 ^ k → (fft_output twiddle (2 ^ k)).getD p 0
      = ∑ n in Finset.range (2 ^ k), ((n % 256 : Nat) : R) * twiddle (2 ^ k) ^ (n * p) := by
  obtain ⟨_, b2, b3, _⟩ := bitrev_loop_inv k (fft_input R (2 ^ k)) (fft_input_length R _)
    (2 ^ k) (le_refl _)
  obtain ⟨f1, f2⟩ := fft_stages_fold twiddle k _ b2 htw hneg k (le_refl _)
  unfold fft_output
  rw [fft_stages_two_pow]
  refine ⟨f1, fun p hp => ?_⟩
  rw [f2 p hp]
  unfold block_dft
  apply Finset.sum_congr rfl
  intro q hq
  have hq' : q < 2 ^ k := Finset.mem_range.mp hq
  have hr := rev_bits_lt k q
  rw [Nat.div_eq_of_lt hp, Nat.mod_eq_of_lt hp, Nat.zero_mul, Nat.zero_add]
  simp only
  rw [b3 _ hr, if_pos (Or.inl hr), rev_bits_invol k q hq', fft_input_getD R _ q hq']

/-! ## `fft` over the complex numbers -/

theorem mk_zero_im (t : ℝ) : Complex.mk 0 t = (t : ℂ) * Complex.I := by
  apply Complex.ext <;> simp

theorem twiddle_sq (s : Nat) :
    Complex.exp (Complex.mk 0 (-2 * Real.pi / ((2 ^ (s + 1) : Nat) : ℝ))) ^ 2
      = Complex.exp (Complex.mk 0 (-2 * Real.pi / ((2 ^ s : Nat) : ℝ))) := by
  rw [← Complex.exp_nat_mul, mk_zero_im, mk_zero_im]
  congr 1
  push_cast
  field_simp
  ring

theorem twiddle_half (s : Nat) :
    Complex.exp (Complex.mk 0 (-2 * Real.pi / ((2 ^ (s + 1) : Nat) : ℝ))) ^ (2 ^ s) = -1 := by
  rw [← Complex.exp_nat_mul, mk_zero_im]
  have h : (((2 ^ s : Nat) : ℂ)) *
      (((-2 * Real.pi / ((2 ^ (s + 1) : Nat) : ℝ) : ℝ) : ℂ) * Complex.I)
      = -(Real.pi * Complex.I) := by
    push_cast
    field_simp
    ring
  rw [h, Complex.exp_neg, Complex.exp_pi_mul_I]
  norm_num

theorem twiddle_pow (N n p : Nat) :
    Complex.exp (Complex.mk 0 (-2 * Real.pi / (N : ℝ))) ^ (n * p)
      = Complex.exp (-2 * Real.pi * Complex.I * n * p / N) := by
  rw [← Complex.exp_nat_mul, mk_zero_im]
  congr 1
  push_cast
  ring

theorem foldl_add_eq_sum {K : Type} [LinearOrderedField K] (n : Nat) (f : Nat → K) (c : K) :
    (List.range n).foldl (fun checksum i => checksum + f i) c
      = c + ∑ i in Finset.range n, f i := by
  induction n with
  | zero => simp
  | succ n ih =>
    rw [List.range_succ, List.foldl_append, ih, Finset.sum_range_succ]
    simp only [List.foldl]
    ring

/-- The array of `fft(2^k)` over the complex numbers, with the twiddle factors
`exp(-2πi/m)`, is the discrete Fourier transform of the samples. -/
theorem fft_output_complex (k p : Nat) (hp : p < 2 ^ k) :
    (fft_output (fun m => Complex.exp (Complex.mk 0 (-2 * Real.pi / (m : ℝ)))) (2 ^ k)).getD p 0
      = ∑ n in Finset.range (2 ^ k), ((n % 256 : Nat) : ℂ) *
          Complex.exp (-2 * Real.pi * Complex.I * n * p / (2 ^ k : Nat)) := by
  rw [(fft_output_dft (fun m => Complex.exp (Complex.mk 0 (-2 * Real.pi / (m : ℝ)))) k
    (fun s _ => twiddle_sq s) (fun s _ => twiddle_half s)).2 p hp]
  apply Finset.sum_congr rfl
  intro n _
  rw [twiddle_pow]

/-- The checksum of `fft(2^k)` over the complex numbers is the sum of the magnitudes of the
discrete Fourier transform of the samples. -/
theorem fft_checksum_complex (k : Nat) :
    fft_checksum (fun m => Complex.exp (Complex.mk 0 (-2 * Real.pi / (m : ℝ))))
        (fun z => Complex.abs z) (2 ^ k)
      = ∑ p in Finset.range (2 ^ k), Complex.abs (∑ n in Finset.range (2 ^ k),
          ((n % 256 : Nat) : ℂ) *
            Complex.exp (-2 * Real.pi * Complex.I * n * p / (2 ^ k : Nat))) := by
  unfold fft_checksum
  rw [foldl_add_eq_sum, zero_add]
  apply Finset.sum_congr rfl
  intro p hp
  rw [fft_output_complex k p (Finset.mem_range.mp hp)]

theorem sum_mod_256 (q : Nat) : ∑ n in Finset.range (256 * q), n % 256 = 32640 * q := by
  have hbase : ∑ x in Finset.range 256, x % 256 = 32640 := by
    have h : ∑ x in Finset.range 256, x % 256 = ∑ x in Finset.range 256, x := by
      apply Finset.sum_congr rfl
      intro x hx
      exact Nat.mod_eq_of_lt (Finset.mem_range.mp hx)
    rw [h, Finset.sum_range_id]
  induction q with
  | zero => simp
  | succ q ih =>
    have : 256 * (q + 1) = 256 * q + 256 := by ring
    rw [this, Finset.sum_range_add, ih]
    have h : ∑ x in Finset.range 256, (256 * q + x) % 256
        = ∑ x in Finset.range 256, x % 256 := by
      apply Finset.sum_congr rfl
      intro x _
      rw [Nat.mul_add_mod]
    rw [h, hbase]
    ring

/-- The checksum of `fft(2^k)` is at most `255 * 2^k * 2^k`. -/
theorem fft_checksum_le (k : Nat) :
    fft_checksum (fun m => Complex.exp (Complex.mk 0 (-2 * Real.pi / (m : ℝ))))
        (fun z => Complex.abs z) (2 ^ k) ≤ 255 * 2 ^ k * 2 ^ k := by
  rw [fft_checksum_complex]
  have hterm : ∀ p : Nat, Complex.abs (∑ n in Finset.range (2 ^ k), ((n % 256 : Nat) : ℂ) *
      Complex.exp (-2 * Real.pi * Complex.I * n * p / (2 ^ k : Nat))) ≤ 255 * 2 ^ k := by
    intro p
    refine le_trans (Complex.abs.sum_le _ _) ?_
    have hle : ∀ n ∈ Finset.range (2 ^ k), Complex.abs (((n % 256 : Nat) : ℂ) *
        Complex.exp (-2 * Real.pi * Complex.I * n * p / (2 ^ k : Nat))) ≤ (255 : ℝ) := by
      intro n _
      rw [← twiddle_pow, map_mul, map_pow, Complex.abs_exp, Complex.abs_natCast]
      simp only [Real.exp_zero, one_pow, mul_one]
      have : n % 256 ≤ 255 := by omega
      exact_mod_cast this
    refine le_trans (Finset.sum_le_sum hle) ?_
    rw [Finset.sum_const, Finset.card_range]
    simp only [nsmul_eq_mul]
    push_cast
    linarith
  refine le_trans (Finset.sum_le_sum (fun p _ => hterm p)) ?_
  rw [Finset.sum_const, Finset.card_range]
  simp only [nsmul_eq_mul]
  push_cast
  linarith

/-- The checksum of `fft(2^k)` is non-negative. -/
theorem fft_checksum_nonneg (k : Nat) :
    0 ≤ fft_checksum (fun m => Complex.exp (Complex.mk 0 (-2 * Real.pi / (m : ℝ))))
        (fun z => Complex.abs z) (2 ^ k) := by
  rw [fft_checksum_complex]
  exact Finset.sum_nonneg (fun p _ => Complex.abs.nonneg _)

/-- The checksum of `fft(2^(j+8))` is at least the magnitude of the frequency `0`, which is
the sum `32640 * 2^j` of the samples. -/
theorem fft_checksum_ge (j : Nat) :
    (32640 : ℝ) * 2 ^ j ≤
      fft_checksum (fun m => Complex.exp (Complex.mk 0 (-2 * Real.pi / (m : ℝ))))
        (fun z => Complex.abs z) (2 ^ (j + 8)) := by
  rw [fft_checksum_complex]
  have hmem : 0 ∈ Finset.range (2 ^ (j + 8)) :=
    Finset.mem_range.mpr (Nat.pos_pow_of_pos _ (by decide))
  refine le_trans ?_ (Finset.single_le_sum
    (f := fun p : Nat => Complex.abs (∑ n in Finset.range (2 ^ (j + 8)),
      ((n % 256 : Nat) : ℂ) *
        Complex.exp (-2 * Real.pi * Complex.I * n * p / (2 ^ (j + 8) : Nat))))
    (fun p _ => Complex.abs.nonneg _) hmem)
  have h0 : ∀ n : Nat, ((n % 256 : Nat) : ℂ) *
      Complex.exp (-2 * Real.pi * Complex.I * n * ((0 : Nat) : ℂ) / (2 ^ (j + 8) : Nat))
      = ((n % 256 : Nat) : ℂ) := by
    intro n
    rw [Nat.cast_zero, mul_zero, zero_div, Complex.exp_zero, mul_one]
  have hN : 2 ^ (j + 8) = 256 * 2 ^ j := by rw [pow_add]; ring
  simp only [h0]
  rw [← Nat.cast_sum, Complex.abs_natCast, hN, sum_mod_256]
  push_cast
  exact le_refl _

/-- C8, amended: for `N = 2^k` the stage loop of `fft` runs through the `k` stages
`s = 1, ..., k`, with `m = 2, 4, ..., N`; over exact complex arithmetic the array afterwards
is the discrete Fourier transform `x[p] = Σ_n (n mod 256) * exp(-2πi·n·p/N)` of the samples;
the checksum is the sum of the magnitudes `|x[p]|`; when the checksum is below `2^31`, which
is the case for `k ≤ 11`, the routine returns the checksum truncated to an integer, modulo
`1000000`. -/
theorem fft_computes_dft (k : Nat) :
    fft_stages (2 ^ k) = List.range' 1 k ∧
    (fft_stages (2 ^ k)).length = k ∧
    (fft_stages (2 ^ k)).map (fun s => 2 ^ s) = (List.range k).map (fun i => 2 ^ (i + 1)) ∧
    (∀ p, p < 2 ^ k →
      (fft_output (fun m => Complex.exp (Complex.mk 0 (-2 * Real.pi / (m : ℝ))))
          (2 ^ k)).getD p 0
        = ∑ n in Finset.range (2 ^ k), ((n % 256 : Nat) : ℂ) *
            Complex.exp (-2 * Real.pi * Complex.I * n * p / (2 ^ k : Nat))) ∧
    fft_checksum (fun m => Complex.exp (Complex.mk 0 (-2 * Real.pi / (m : ℝ))))
        (fun z => Complex.abs z) (2 ^ k)
      = ∑ p in Finset.range (2 ^ k), Complex.abs (∑ n in Finset.range (2 ^ k),
          ((n % 256 : Nat) : ℂ) *
            Complex.exp (-2 * Real.pi * Complex.I * n * p / (2 ^ k : Nat))) ∧
    (fft_checksum (fun m => Complex.exp (Complex.mk 0 (-2 * Real.pi / (m : ℝ))))
        (fun z => Complex.abs z) (2 ^ k) < 2 ^ 31 →
      fft (fun m => Complex.exp (Complex.mk 0 (-2 * Real.pi / (m : ℝ))))
          (fun z => Complex.abs z) (2 ^ k)
        = some (Int.tmod (trunc (fft_checksum
            (fun m => Complex.exp (Complex.mk 0 (-2 * Real.pi / (m : ℝ))))
            (fun z => Complex.abs z) (2 ^ k))) 1000000)) ∧
    (k ≤ 11 → fft_checksum (fun m => Complex.exp (Complex.mk 0 (-2 * Real.pi / (m : ℝ))))
        (fun z => Complex.abs z) (2 ^ k) < 2 ^ 31) := by
  refine ⟨fft_stages_two_pow k, ?_, ?_, fun p hp => fft_output_complex k p hp,
    fft_checksum_complex k, fun hlt => ?_, fun hk => ?_⟩
  · rw [fft_stages_two_pow, List.length_range']
  · rw [fft_stages_two_pow, List.range'_eq_map_range, List.map_map]
    apply List.map_congr_left
    intro i _
    simp only [Function.comp]
    rw [Nat.add_comm]
  · have h0 := fft_checksum_nonneg k
    unfold fft checksum_result
    rw [cast_int_of_nonneg_lt _ h0 (by norm_num at hlt ⊢; exact hlt), trunc_of_nonneg _ h0]
    rfl
  · refine lt_of_le_of_lt (fft_checksum_le k) ?_
    have h1 : (2 : ℝ) ^ k ≤ 2 ^ 11 := pow_le_pow_right₀ (by norm_num) hk
    have h2 : (0 : ℝ) < 2 ^ k := by positivity
    have h3 : (255 : ℝ) * 2 ^ k * 2 ^ k ≤ 255 * 2 ^ 11 * 2 ^ 11 := by
      have := mul_le_mul h1 h1 (le_of_lt h2) (by positivity)
      nlinarith
    refine lt_of_le_of_lt h3 ?_
    norm_num

/-- Witness of C8: the size `N = 2048 = 2^11` of `main`, whose checksum is below `2^31`. -/
theorem fft_computes_dft_witness :
    fft (fun m => Complex.exp (Complex.mk 0 (-2 * Real.pi / (m : ℝ))))
        (fun z => Complex.abs z) (2 ^ 11)
      = some (Int.tmod (trunc (fft_checksum
          (fun m => Complex.exp (Complex.mk 0 (-2 * Real.pi / (m : ℝ))))
          (fun z => Complex.abs z) (2 ^ 11))) 1000000) :=
  (fft_computes_dft 11).2.2.2.2.2.1 ((fft_computes_dft 11).2.2.2.2.2.2 (le_refl _))

/-- Counterexample to C8 as stated: for `N = 2^25` the magnitude of the frequency `0` alone is
`4278190080 ≥ 2^31`, so the conversion of the checksum to `int` is undefined and `fft(2^25)`
does not return the truncated sum of the magnitudes modulo `1000000`. -/
theorem fft_two_pow_25_undefined :
    fft (fun m => Complex.exp (Complex.mk 0 (-2 * Real.pi / (m : ℝ))))
        (fun z => Complex.abs z) (2 ^ 25) = none ∧
    ¬ (fft (fun m => Complex.exp (Complex.mk 0 (-2 * Real.pi / (m : ℝ))))
        (fun z => Complex.abs z) (2 ^ 25)
      = some (Int.tmod (trunc (∑ p in Finset.range (2 ^ 25),
          Complex.abs (∑ n in Finset.range (2 ^ 25), ((n % 256 : Nat) : ℂ) *
            Complex.exp (-2 * Real.pi * Complex.I * n * p / (2 ^ 25 : Nat))))) 1000000)) := by
  have h : fft (fun m => Complex.exp (Complex.mk 0 (-2 * Real.pi / (m : ℝ))))
      (fun z => Complex.abs z) (2 ^ 25) = none := by
    have hge := fft_checksum_ge 17
    unfold fft checksum_result
    rw [cast_int_of_ge _ (le_trans (by norm_num) hge)]
    rfl
  exact ⟨h, by rw [h]; exact fun hh => Option.noConfusion hh⟩

/-! ## Timing of `main` -/

theorem elapsed_ms_eq (P a b : Nat) (hab : a ≤ b) :
    elapsed_ms P a b = (((b - a) / P : Nat) : Int) := by
  unfold elapsed_ms
  rw [Int.tdiv_eq_ediv (by omega) (by omega), ← Nat.cast_sub hab]
  norm_cast

theorem div_add_div_le (P a b : Nat) : a / P + b / P ≤ (a + b) / P := by
  rcases Nat.eq_zero_or_pos P with h0 | hP
  · subst h0; simp
  · rw [Nat.le_div_iff_mul_le hP, Nat.add_mul]
    exact Nat.add_le_add (Nat.div_mul_le_self a P) (Nat.div_mul_le_self b P)

theorem div_add_le_succ (P a b : Nat) (hP : 0 < P) : (a + b) / P ≤ a / P + b / P + 1 := by
  have ha := Nat.div_add_mod a P
  have hb := Nat.div_add_mod b P
  have hra := Nat.mod_lt a hP
  have hrb := Nat.mod_lt b hP
  have h : a + b = (a % P + b % P) + P * (a / P + b / P) := by
    rw [Nat.mul_add]; omega
  rw [h, Nat.add_mul_div_left _ _ hP]
  have : (a % P + b % P) / P < 2 := by
    rw [Nat.div_lt_iff_lt_mul hP]; omega
  omega

/-- C11: for every non-decreasing sequence of seven clock readings `t0 ≤ t1 ≤ ... ≤ t6` (and any
positive number of clock ticks per millisecond), each of the six stage timings that `main`
prints is non-negative, and the printed total lies between the sum of the six and that sum
plus `5`. -/
theorem driver_timing (P t0 t1 t2 t3 t4 t5 t6 : Nat) (hP : 0 < P) (h01 : t0 ≤ t1)
    (h12 : t1 ≤ t2) (h23 : t2 ≤ t3) (h34 : t3 ≤ t4) (h45 : t4 ≤ t5) (h56 : t5 ≤ t6) :
    (∀ d, d ∈ stage_timings P t0 t1 t2 t3 t4 t5 t6 → 0 ≤ d) ∧
    (stage_timings P t0 t1 t2 t3 t4 t5 t6).sum ≤ total_timing P t0 t6 ∧
    total_timing P t0 t6 ≤ (stage_timings P t0 t1 t2 t3 t4 t5 t6).sum + 5 := by
  unfold stage_timings total_timing
  rw [elapsed_ms_eq P t0 t1 h01, elapsed_ms_eq P t1 t2 h12, elapsed_ms_eq P t2 t3 h23,
    elapsed_ms_eq P t3 t4 h34, elapsed_ms_eq P t4 t5 h45, elapsed_ms_eq P t5 t6 h56,
    elapsed_ms_eq P t0 t6 (by omega)]
  have e : t6 - t0 = (t1 - t0) + (t2 - t1) + (t3 - t2) + (t4 - t3) + (t5 - t4) + (t6 - t5) := by
    omega
  generalize t1 - t0 = d0 at e ⊢
  generalize t2 - t1 = d1 at e ⊢
  generalize t3 - t2 = d2 at e ⊢
  generalize t4 - t3 = d3 at e ⊢
  generalize t5 - t4 = d4 at e ⊢
  generalize t6 - t5 = d5 at e ⊢
  rw [e]
  have l1 := div_add_div_le P d0 d1
  have l2 := div_add_div_le P (d0 + d1) d2
  have l3 := div_add_div_le P (d0 + d1 + d2) d3
  have l4 := div_add_div_le P (d0 + d1 + d2 + d3) d4
  have l5 := div_add_div_le P (d0 + d1 + d2 + d3 + d4) d5
  have u1 := div_add_le_succ P d0 d1 hP
  have u2 := div_add_le_succ P (d0 + d1) d2 hP
  have u3 := div_add_le_succ P (d0 + d1 + d2) d3 hP
  have u4 := div_add_le_succ P (d0 + d1 + d2 + d3) d4 hP
  have u5 := div_add_le_succ P (d0 + d1 + d2 + d3 + d4) d5 hP
  refine ⟨fun d hd => ?_, ?_, ?_⟩
  · simp only [List.mem_cons, List.mem_singleton, List.not_mem_nil, or_false] at hd
    rcases hd with rfl | rfl | rfl | rfl | rfl | rfl <;> exact Int.natCast_nonneg _
  · simp only [List.sum_cons, List.sum_nil, add_zero]
    omega
  · simp only [List.sum_cons, List.sum_nil, add_zero]
    omega

/-- Witness of C11: seven readings of a clock that counts nanoseconds. -/
theorem driver_timing_witness :
    (∀ d, d ∈ stage_timings 1000000 0 1500000 3000000 4500000 6000000 7500000 9999999 →
      0 ≤ d) ∧
    (stage_timings 1000000 0 1500000 3000000 4500000 6000000 7500000 9999999).sum
      ≤ total_timing 1000000 0 9999999 ∧
    total_timing 1000000 0 9999999
      ≤ (stage_timings 1000000 0 1500000 3000000 4500000 6000000 7500000 9999999).sum + 5 :=
  driver_timing 1000000 0 1500000 3000000 4500000 6000000 7500000 9999999 (by decide)
    (by decide) (by decide) (by decide) (by decide) (by decide) (by decide)

/-! ## `mandelbrot`: the escape loop and the reference count -/

/-- Started at `(z_n, n)`, the escape loop ends at some `(z_r, r)` with `n ≤ r`, having passed
the test `abs(z) < 2.0` at every index from `n` up to `r`. -/
theorem mandel_loop_orbit (c : Cplx) (max_iter fuel n : Nat) :
    (mandel_loop c max_iter fuel (orbit c n, n)).1
      = orbit c (mandel_loop c max_iter fuel (orbit c n, n)).2 ∧
    n ≤ (mandel_loop c max_iter fuel (orbit c n, n)).2 ∧
    (mandel_loop c max_iter fuel (orbit c n, n)).2 ≤ max n max_iter ∧
    (∀ i, n ≤ i → i < (mandel_loop c max_iter fuel (orbit c n, n)).2 →
      abs_lt_two (orbit c i) = true) := by
  induction fuel generalizing n with
  | zero =>
    unfold mandel_loop
    exact ⟨rfl, le_refl _, le_max_left _ _, fun i h1 h2 => by simp only at h2; omega⟩
  | succ fuel ih =>
    unfold mandel_loop
    by_cases hc : abs_lt_two (orbit c n) = true ∧ n < max_iter
    · simp only [hc, and_self, if_true]
      have hstep : Cplx.add (Cplx.mul (orbit c n) (orbit c n)) c = orbit c (n + 1) := rfl
      rw [hstep]
      obtain ⟨i1, i2, i3, i4⟩ := ih (n + 1)
      refine ⟨i1, by omega, ?_, fun i h1 h2 => ?_⟩
      · have : max (n + 1) max_iter = max n max_iter := by
          rw [max_eq_right (by omega), max_eq_right (by omega)]
        omega
      · rcases Nat.eq_or_lt_of_le h1 with h | h
        · rw [← h]; exact hc.1
        · exact i4 i (by omega) h2
    · rw [if_neg hc]
      exact ⟨rfl, le_refl _, le_max_left _ _, fun i h1 h2 => by simp only at h2; omega⟩

/-- The iteration count of a pixel: at most `max_iter`, with the test `abs(z) < 2.0` passed
at every earlier index and failed at the count itself when that is below `max_iter`. -/
theorem mandel_pixel_count (c : Cplx) (max_iter : Nat) :
    (mandel_pixel c max_iter).2 ≤ max_iter ∧
    (∀ i, i < (mandel_pixel c max_iter).2 → abs_lt_two (orbit c i) = true) ∧
    ((mandel_pixel c max_iter).2 < max_iter →
      abs_lt_two (orbit c (mandel_pixel c max_iter).2) = false) := by
  have h := mandel_loop_orbit c max_iter max_iter 0
  have hex := mandel_loop_exit c max_iter max_iter (⟨0, 0⟩, 0) (by simp)
  unfold mandel_pixel
  have h0 : orbit c 0 = ⟨0, 0⟩ := rfl
  rw [h0] at h
  obtain ⟨h1, _, h3, h4⟩ := h
  refine ⟨by simpa using h3, fun i hi => h4 i (Nat.zero_le _) hi, fun hlt => ?_⟩
  rw [h1] at hex
  cases hb : abs_lt_two (orbit c (mandel_loop c max_iter max_iter (⟨0, 0⟩, 0)).2) with
  | false => rfl
  | true => exact absurd ⟨hb, hlt⟩ hex

/-- The iteration count of a pixel is the reference count of the specification. -/
theorem mandel_pixel_eq_escape_count (c : Cplx) (max_iter : Nat) :
    (mandel_pixel c max_iter).2 = escape_count c max_iter := by
  obtain ⟨h1, h2, h3⟩ := mandel_pixel_count c max_iter
  unfold escape_count
  split
  · next h =>
    symm
    rw [Nat.find_eq_iff]
    obtain ⟨n, hn, hesc⟩ := h
    have hle : (mandel_pixel c max_iter).2 ≤ n := by
      by_contra hlt
      have := h2 n (by omega)
      rw [this] at hesc
      exact Bool.noConfusion hesc
    have hlt : (mandel_pixel c max_iter).2 < max_iter := by omega
    refine ⟨⟨hlt, h3 hlt⟩, fun i hi hp => ?_⟩
    have := h2 i hi
    rw [this] at hp
    exact Bool.noConfusion hp.2
  · next h =>
    by_contra hne
    have hlt : (mandel_pixel c max_iter).2 < max_iter := by omega
    exact h ⟨_, hlt, h3 hlt⟩

/-- The first round of the escape loop always runs when `max_iter ≥ 1`, because `z` starts
at `0`. -/
theorem mandel_pixel_count_pos (c : Cplx) (max_iter : Nat) :
    min 1 max_iter ≤ (mandel_pixel c max_iter).2 := by
  obtain ⟨_, _, h3⟩ := mandel_pixel_count c max_iter
  by_contra hlt
  have h0 : (mandel_pixel c max_iter).2 = 0 := by
    have : min 1 max_iter ≤ 1 := Nat.min_le_left _ _
    omega
  have hM : 0 < max_iter := by
    rcases Nat.eq_zero_or_pos max_iter with h | h
    · rw [h] at hlt; simp at hlt
    · exact h
  have := h3 (by omega)
  rw [h0] at this
  have hz : abs_lt_two (orbit c 0) = true := by simp [orbit, abs_lt_two]
  rw [hz] at this
  exact Bool.noConfusion this

/-! ## `mandelbrot`: the accumulator -/

theorem wrap_fold_sum (n : Nat) (f : Nat → Nat) (s0 : Int) (hs : wrapInt32 s0 = s0) :
    (List.range n).foldl (fun sum x => wrapInt32 (sum + (f x : Int))) s0
      = wrapInt32 (s0 + ((∑ x in Finset.range n, f x : Nat) : Int)) := by
  induction n with
  | zero => simpa using hs.symm
  | succ n ih =>
    rw [List.range_succ, List.foldl_append, ih, Finset.sum_range_succ]
    simp only [List.foldl]
    rw [wrapInt32_add_left]
    congr 1
    push_cast
    ring

/-- The value returned by `mandelbrot` is the sum of the iteration counts of all pixels,
reduced to 32 bits. -/
theorem mandelbrot_eq_wrap (width height max_iter : Nat) :
    mandelbrot width height max_iter = wrapInt32 (mandel_sum width height max_iter : Nat) := by
  have hrows : ∀ n, (List.range n).foldl (fun sum y =>
      (List.range width).foldl (fun sum x =>
        wrapInt32 (sum + ((mandel_pixel (pixel_c width height x y) max_iter).2 : Int))) sum) 0
      = wrapInt32 ((∑ y in Finset.range n, ∑ x in Finset.range width,
          mandel_count width height max_iter x y : Nat) : Int) := by
    intro n
    induction n with
    | zero => simp [wrapInt32]
    | succ n ih =>
      rw [List.range_succ, List.foldl_append, ih, Finset.sum_range_succ]
      simp only [List.foldl]
      rw [wrap_fold_sum width (fun x => (mandel_pixel (pixel_c width height x n) max_iter).2) _
        (wrapInt32_idem _), wrapInt32_add_left]
      congr 1
  unfold mandelbrot mandel_sum
  exact hrows height

theorem mandel_sum_bounds (width height max_iter : Nat) :
    width * height * min 1 max_iter ≤ mandel_sum width height max_iter ∧
    mandel_sum width height max_iter ≤ width * height * max_iter := by
  unfold mandel_sum mandel_count
  constructor
  · have h : ∑ _y in Finset.range height, ∑ _x in Finset.range width, min 1 max_iter
        ≤ ∑ y in Finset.range height, ∑ x in Finset.range width,
          (mandel_pixel (pixel_c width height x y) max_iter).2 :=
      Finset.sum_le_sum (fun y _ => Finset.sum_le_sum
        (fun x _ => mandel_pixel_count_pos _ _))
    simp only [Finset.sum_const, Finset.card_range, smul_eq_mul] at h
    calc width * height * min 1 max_iter = height * (width * min 1 max_iter) := by ring
      _ ≤ _ := h
  · have h : ∑ y in Finset.range height, ∑ x in Finset.range width,
          (mandel_pixel (pixel_c width height x y) max_iter).2
        ≤ ∑ _y in Finset.range height, ∑ _x in Finset.range width, max_iter :=
      Finset.sum_le_sum (fun y _ => Finset.sum_le_sum
        (fun x _ => (mandel_pixel_count _ _).1))
    simp only [Finset.sum_const, Finset.card_range, smul_eq_mul] at h
    calc _ ≤ height * (width * max_iter) := h
      _ = width * height * max_iter := by ring

/-- When the sum of the iteration counts is below `2^31`, the accumulator of `mandelbrot`
does not wrap and the routine returns the sum. -/
theorem mandelbrot_eq_sum (width height max_iter : Nat)
    (h : mandel_sum width height max_iter < 2147483648) :
    mandelbrot width height max_iter = (mandel_sum width height max_iter : Nat) := by
  rw [mandelbrot_eq_wrap]
  apply wrapInt32_of_range <;> omega

theorem mandel_loop_succ_pos (c : Cplx) (max_iter fuel : Nat) (st : Cplx × Nat)
    (h : abs_lt_two st.1 = true ∧ st.2 < max_iter) :
    mandel_loop c max_iter (fuel + 1) st
      = mandel_loop c max_iter fuel (Cplx.add (Cplx.mul st.1 st.1) c, st.2 + 1) := by
  rw [mandel_loop, if_pos h]

theorem mandel_loop_succ_neg (c : Cplx) (max_iter fuel : Nat) (st : Cplx × Nat)
    (h : ¬ (abs_lt_two st.1 = true ∧ st.2 < max_iter)) :
    mandel_loop c max_iter (fuel + 1) st = st := by
  rw [mandel_loop, if_neg h]

/-- More fuel than `max_iter` does not change the result of the escape loop. -/
theorem mandel_loop_stable (c : Cplx) (max_iter fuel extra : Nat) (st : Cplx × Nat)
    (h : ¬ (abs_lt_two (mandel_loop c max_iter fuel st).1 = true ∧
      (mandel_loop c max_iter fuel st).2 < max_iter)) :
    mandel_loop c max_iter (fuel + extra) st = mandel_loop c max_iter fuel st := by
  induction fuel generalizing st with
  | zero =>
    have h0 : mandel_loop c max_iter 0 st = st := rfl
    rw [h0] at h
    rw [Nat.zero_add, h0]
    cases extra with
    | zero => rfl
    | succ e => exact mandel_loop_succ_neg c max_iter e st h
  | succ fuel ih =>
    have e : fuel + 1 + extra = (fuel + extra) + 1 := by omega
    rw [e]
    by_cases hc : abs_lt_two st.1 = true ∧ st.2 < max_iter
    · rw [mandel_loop_succ_pos _ _ _ _ hc] at h ⊢
      rw [mandel_loop_succ_pos _ _ _ _ hc]
      exact ih _ h
    · rw [mandel_loop_succ_neg _ _ _ _ hc, mandel_loop_succ_neg _ _ _ _ hc]

/-- C13, amended: over exact arithmetic, the count that pixel `(x, y)` contributes in
`mandelbrot` is the reference count of the specification, the least `n` with `|z_n| ≥ 2.0`
when there is one below `max_iter` and `max_iter` otherwise, for `z_0 = 0`,
`z_(n+1) = z_n² + c` and `c = ((x - width/2)*4/width, (y - height/2)*4/width)`; the routine
returns the sum of the counts of all pixels whenever that sum is below `2^31`, in particular
whenever `width * height * max_iter < 2^31`. -/
theorem mandelbrot_reference :
    (∀ width height max_iter x y : Nat,
      mandel_count width height max_iter x y
        = escape_count (pixel_c width height x y) max_iter) ∧
    (∀ c : Cplx, orbit c 0 = ⟨0, 0⟩ ∧
      ∀ n, orbit c (n + 1) = Cplx.add (Cplx.mul (orbit c n) (orbit c n)) c) ∧
    (∀ width height x y : Nat, pixel_c width height x y
      = ⟨((x : ℚ) - (width : ℚ) / 2) * 4 / (width : ℚ),
         ((y : ℚ) - (height : ℚ) / 2) * 4 / (width : ℚ)⟩) ∧
    (∀ width height max_iter : Nat, mandel_sum width height max_iter < 2 ^ 31 →
      mandelbrot width height max_iter = (mandel_sum width height max_iter : Nat)) ∧
    (∀ width height max_iter : Nat, width * height * max_iter < 2 ^ 31 →
      mandelbrot width height max_iter = (mandel_sum width height max_iter : Nat)) := by
  refine ⟨fun width height max_iter x y => mandel_pixel_eq_escape_count _ _,
    fun c => ⟨rfl, fun n => rfl⟩, fun _ _ _ _ => rfl,
    fun width height max_iter h => mandelbrot_eq_sum _ _ _ (by norm_num at h; exact h),
    fun width height max_iter h => mandelbrot_eq_sum _ _ _ ?_⟩
  have := (mandel_sum_bounds width height max_iter).2
  norm_num at h
  omega

/-- Witness of C13: the 800 × 800 grid with 1000 iterations of `main`. -/
theorem mandelbrot_reference_witness :
    mandelbrot 800 800 1000 = (mandel_sum 800 800 1000 : Nat) :=
  mandelbrot_reference.2.2.2.2 800 800 1000 (by norm_num)

/-- Counterexample to C13 as stated: with `max_iter = 1` every pixel contributes `1`; on the
65536 × 32768 grid the sum of the counts is `2^31`, which the `int` accumulator cannot hold:
the routine does not return the sum. -/
theorem mandelbrot_sum_overflow :
    mandel_sum 65536 32768 1 = 2147483648 ∧
    mandelbrot 65536 32768 1 = -2147483648 ∧
    mandelbrot 65536 32768 1 ≠ (mandel_sum 65536 32768 1 : Nat) := by
  obtain ⟨h1, h2⟩ := mandel_sum_bounds 65536 32768 1
  have hs : mandel_sum 65536 32768 1 = 2147483648 := by
    norm_num at h1 h2
    omega
  have hm : mandelbrot 65536 32768 1 = -2147483648 := by
    rw [mandelbrot_eq_wrap, hs]
    decide
  refine ⟨hs, hm, ?_⟩
  rw [hm, hs]
  decide

/-- C18: the escape loop of a pixel ends within `max_iter` rounds (with fuel `max_iter` its
condition is false at the end, and more fuel gives the same result); the count of every
pixel lies in `[min(1, max_iter), max_iter]`; the sum of the counts lies in
`[width*height*min(1, max_iter), width*height*max_iter]`; for the constants 800 × 800 × 1000
of `main` the upper bound is `640000000 < 2^31`, and the 32-bit accumulator returns the sum
itself. -/
theorem mandelbrot_bounds :
    (∀ (c : Cplx) (max_iter : Nat),
      ¬ (abs_lt_two (mandel_pixel c max_iter).1 = true ∧
        (mandel_pixel c max_iter).2 < max_iter)) ∧
    (∀ (c : Cplx) (max_iter extra : Nat),
      mandel_loop c max_iter (max_iter + extra) (⟨0, 0⟩, 0) = mandel_pixel c max_iter) ∧
    (∀ width height max_iter x y : Nat,
      min 1 max_iter ≤ mandel_count width height max_iter x y ∧
      mandel_count width height max_iter x y ≤ max_iter) ∧
    (∀ width height max_iter : Nat,
      width * height * min 1 max_iter ≤ mandel_sum width height max_iter ∧
      mandel_sum width height max_iter ≤ width * height * max_iter) ∧
    800 * 800 * 1000 = 640000000 ∧ (640000000 : Int) < 2 ^ 31 ∧
    mandel_sum 800 800 1000 ≤ 640000000 ∧
    mandelbrot 800 800 1000 = (mandel_sum 800 800 1000 : Nat) := by
  have hex : ∀ (c : Cplx) (max_iter : Nat),
      ¬ (abs_lt_two (mandel_pixel c max_iter).1 = true ∧
        (mandel_pixel c max_iter).2 < max_iter) :=
    fun c max_iter => mandel_loop_exit c max_iter max_iter (⟨0, 0⟩, 0) (by simp)
  have hb := (mandel_sum_bounds 800 800 1000).2
  refine ⟨hex, fun c max_iter extra => mandel_loop_stable c max_iter max_iter extra _
      (hex c max_iter),
    fun width height max_iter x y =>
      ⟨mandel_pixel_count_pos _ _, (mandel_pixel_count _ _).1⟩,
    mandel_sum_bounds, by norm_num, by norm_num, by norm_num at hb; exact hb,
    mandelbrot_eq_sum _ _ _ (by norm_num at hb; omega)⟩

/-- Witness of C18: the centre pixel of the 800 × 800 grid with 1000 iterations. -/
theorem mandelbrot_bounds_witness :
    min 1 1000 ≤ mandel_count 800 800 1000 400 400 ∧
    mandel_count 800 800 1000 400 400 ≤ 1000 :=
  mandelbrot_bounds.2.2.1 800 800 1000 400 400

/-! ## `mandelbrot`: the viewing window -/

/-- C14, amended: for `width > 0`, `height > 0` and every pixel `(x, y)` of the grid, the real
part of `c` is `4x/width - 2`, in the fixed interval `[-2, 2)`; the imaginary part is
`(4y - 2·height)/width`, in `[-2·height/width, 2·height/width)`, which lies within `[-2, 2)`
when `height ≤ width`; when `width` and `height` are even the pixel
`(width/2, height/2)` maps to `c = 0`. -/
theorem pixel_window (width height x y : Nat) (hw : 0 < width) (hh : 0 < height)
    (hx : x < width) (hy : y < height) :
    (pixel_c width height x y).re = 4 * (x : ℚ) / width - 2 ∧
    -2 ≤ (pixel_c width height x y).re ∧ (pixel_c width height x y).re < 2 ∧
    (pixel_c width height x y).im = (4 * (y : ℚ) - 2 * height) / width ∧
    -2 * (height : ℚ) / width ≤ (pixel_c width height x y).im ∧
    (pixel_c width height x y).im < 2 * (height : ℚ) / width ∧
    (height ≤ width →
      -2 ≤ (pixel_c width height x y).im ∧ (pixel_c width height x y).im < 2) ∧
    (width % 2 = 0 → height % 2 = 0 →
      pixel_c width height (width / 2) (height / 2) = ⟨0, 0⟩) := by
  have hwq : (0 : ℚ) < width := by exact_mod_cast hw
  have hhq : (0 : ℚ) < height := by exact_mod_cast hh
  have hxq : (x : ℚ) < width := by exact_mod_cast hx
  have hyq : (y : ℚ) < height := by exact_mod_cast hy
  have hx0 : (0 : ℚ) ≤ x := by positivity
  have hy0 : (0 : ℚ) ≤ y := by positivity
  have hre : (pixel_c width height x y).re = 4 * (x : ℚ) / width - 2 := by
    simp only [pixel_c]; field_simp; ring
  have him : (pixel_c width height x y).im = (4 * (y : ℚ) - 2 * height) / width := by
    simp only [pixel_c]; field_simp; ring
  have hre1 : -2 ≤ (pixel_c width height x y).re := by
    rw [hre]
    have : (0 : ℚ) ≤ 4 * (x : ℚ) / width := by positivity
    linarith
  have hre2 : (pixel_c width height x y).re < 2 := by
    rw [hre]
    have : 4 * (x : ℚ) / width < 4 := by
      rw [div_lt_iff₀ hwq]; linarith
    linarith
  have him1 : -2 * (height : ℚ) / width ≤ (pixel_c width height x y).im := by
    rw [him]
    apply div_le_div_of_nonneg_right _ (le_of_lt hwq)
    linarith
  have him2 : (pixel_c width height x y).im < 2 * (height : ℚ) / width := by
    rw [him]
    apply div_lt_div_of_pos_right _ hwq
    linarith
  refine ⟨hre, hre1, hre2, him, him1, him2, fun hle => ?_, fun h1 h2 => ?_⟩
  · have hleq : (height : ℚ) ≤ width := by exact_mod_cast hle
    have hr : (height : ℚ) / width ≤ 1 := by
      rw [div_le_iff₀ hwq]; linarith
    have e1 : -2 * (height : ℚ) / width = -2 * ((height : ℚ) / width) := by ring
    have e2 : 2 * (height : ℚ) / width = 2 * ((height : ℚ) / width) := by ring
    rw [e1] at him1
    rw [e2] at him2
    constructor <;> linarith
  · have e1 : ((width / 2 : Nat) : ℚ) = (width : ℚ) / 2 := by
      rw [Nat.cast_div (Nat.dvd_of_mod_eq_zero h1) (by norm_num)]; norm_num
    have e2 : ((height / 2 : Nat) : ℚ) = (height : ℚ) / 2 := by
      rw [Nat.cast_div (Nat.dvd_of_mod_eq_zero h2) (by norm_num)]; norm_num
    unfold pixel_c
    rw [e1, e2]
    simp

/-- Witness of C14: the pixel `(3, 5)` of the 800 × 800 grid of `main`. -/
theorem pixel_window_witness :
    (pixel_c 800 800 3 5).re = 4 * ((3 : Nat) : ℚ) / (800 : Nat) - 2 ∧
    -2 ≤ (pixel_c 800 800 3 5).re ∧ (pixel_c 800 800 3 5).re < 2 ∧
    (pixel_c 800 800 3 5).im = (4 * ((5 : Nat) : ℚ) - 2 * (800 : Nat)) / (800 : Nat) ∧
    -2 * ((800 : Nat) : ℚ) / (800 : Nat) ≤ (pixel_c 800 800 3 5).im ∧
    (pixel_c 800 800 3 5).im < 2 * ((800 : Nat) : ℚ) / (800 : Nat) ∧
    (800 ≤ 800 → -2 ≤ (pixel_c 800 800 3 5).im ∧ (pixel_c 800 800 3 5).im < 2) ∧
    (800 % 2 = 0 → 800 % 2 = 0 → pixel_c 800 800 (800 / 2) (800 / 2) = ⟨0, 0⟩) :=
  pixel_window 800 800 3 5 (by decide) (by decide) (by decide) (by decide)

/-- Counterexample to C14 as stated: on the 2 × 4 grid the pixel `(0, 0)` has the imaginary
part `-4`, outside `[-2, 2)`; on the 3 × 3 grid the pixel `(3/2, 3/2) = (1, 1)` maps to
`(-2/3, -2/3)`, not to `0`. -/
theorem pixel_window_fails :
    (0 < 2 ∧ 0 < 4 ∧ 0 < 2 ∧ 0 < 4) ∧
    (pixel_c 2 4 0 0).im = -4 ∧
    ¬ (-2 ≤ (pixel_c 2 4 0 0).im ∧ (pixel_c 2 4 0 0).im < 2) ∧
    pixel_c 3 3 (3 / 2) (3 / 2) = ⟨-2 / 3, -2 / 3⟩ ∧
    pixel_c 3 3 (3 / 2) (3 / 2) ≠ ⟨0, 0⟩ := by
  have h1 : (pixel_c 2 4 0 0).im = -4 := by
    simp only [pixel_c]; norm_num
  have h2 : pixel_c 3 3 (3 / 2) (3 / 2) = ⟨-2 / 3, -2 / 3⟩ := by
    simp only [pixel_c]; norm_num
  refine ⟨by decide, h1, ?_, h2, ?_⟩
  · rw [h1]; norm_num
  · rw [h2]
    intro h
    have := congrArg Cplx.re h
    norm_num at this

/-! ## `matmul`: the return convention -/

/-- For a non-negative value, the remainder taken before the truncation is the remainder of
the truncated value. -/
theorem spec_result_eq {K : Type} [LinearOrderedField K] [FloorRing K] (v : K) (h0 : 0 ≤ v) :
    spec_result v = ⌊v⌋ % 1000000 := by
  have hM : (0 : K) < 1000000 := by norm_num
  have hq0 : (0 : K) ≤ v / 1000000 := div_nonneg h0 (le_of_lt hM)
  have hk : ⌊v / 1000000⌋ = ⌊v⌋ / 1000000 := by
    rw [Int.floor_eq_iff]
    have h1 : ((⌊v⌋ / 1000000 * 1000000 : Int) : K) ≤ (⌊v⌋ : K) := by
      exact_mod_cast Int.ediv_mul_le ⌊v⌋ (by norm_num)
    have h2 : ((⌊v⌋ + 1 : Int) : K) ≤ (((⌊v⌋ / 1000000 + 1) * 1000000 : Int) : K) := by
      have : ⌊v⌋ + 1 ≤ (⌊v⌋ / 1000000 + 1) * 1000000 := by
        have := Int.lt_ediv_add_one_mul_self ⌊v⌋ (by norm_num : (0 : Int) < 1000000)
        omega
      exact_mod_cast this
    have h3 : (⌊v⌋ : K) ≤ v := Int.floor_le v
    have h4 : v < ((⌊v⌋ + 1 : Int) : K) := by
      push_cast; exact Int.lt_floor_add_one v
    push_cast at h1 h2 h4
    constructor
    · rw [le_div_iff₀ hM]; linarith
    · rw [div_lt_iff₀ hM]; linarith
  have hf0 : (0 : K) ≤ fmod v 1000000 := by
    unfold fmod
    rw [trunc_of_nonneg _ hq0]
    have := Int.sub_floor_div_mul_nonneg v hM
    linarith
  unfold spec_result
  rw [trunc_of_nonneg _ hf0]
  unfold fmod
  rw [trunc_of_nonneg _ hq0, hk]
  have e : v - 1000000 * ((⌊v⌋ / 1000000 : Int) : K)
      = v - ((1000000 * (⌊v⌋ / 1000000) : Int) : K) := by push_cast; ring
  rw [e, Int.floor_sub_int, Int.emod_def]

theorem matmul_bound_iff (N : Nat) :
    (242 / 100 : ℚ) * (N : ℚ) ^ 3 < 2 ^ 31 ↔ N ≤ 960 := by
  have hcast : (242 / 100 : ℚ) * (N : ℚ) ^ 3 < 2 ^ 31 ↔ 242 * N ^ 3 < 214748364800 := by
    constructor
    · intro h
      have : (242 : ℚ) * (N : ℚ) ^ 3 < 214748364800 := by linarith
      exact_mod_cast this
    · intro h
      have : (242 : ℚ) * (N : ℚ) ^ 3 < 214748364800 := by exact_mod_cast h
      linarith
  rw [hcast]
  constructor
  · intro h
    by_contra hN
    have h1 : 961 ^ 3 ≤ N ^ 3 := Nat.pow_le_pow_left (by omega) 3
    norm_num at h1
    omega
  · intro h
    have h1 : N ^ 3 ≤ 960 ^ 3 := Nat.pow_le_pow_left h 3
    norm_num at h1
    omega

/-- C15: the checksum `2.42 * N^3` of `matmul(N)` is below `2^31` exactly when `N ≤ 960`, and
then the value the code returns (the checksum truncated to `int`, then `% 1000000`) is the
value in the words of the specification (the remainder modulo `1000000` first, then the
truncation), and lies in `[0, 999999]`. -/
theorem matmul_return_convention (N : Nat) :
    ((242 / 100 : ℚ) * (N : ℚ) ^ 3 < 2 ^ 31 ↔ N ≤ 960) ∧
    ((242 / 100 : ℚ) * (N : ℚ) ^ 3 < 2 ^ 31 →
      matmul_checksum N = (242 / 100 : ℚ) * (N : ℚ) ^ 3 ∧
      matmul N = some (Int.tmod (trunc (matmul_checksum N)) 1000000) ∧
      matmul N = some (spec_result (matmul_checksum N)) ∧
      0 ≤ spec_result (matmul_checksum N) ∧ spec_result (matmul_checksum N) ≤ 999999) := by
  refine ⟨matmul_bound_iff N, fun h => ?_⟩
  have hc : matmul_checksum N = (242 / 100 : ℚ) * (N : ℚ) ^ 3 := by
    rw [matmul_checksum_eq]; norm_num
  have h0 : (0 : ℚ) ≤ matmul_checksum N := by rw [hc]; positivity
  have hlt : matmul_checksum N < 2147483648 := by rw [hc]; norm_num at h ⊢; exact h
  have hfl : (0 : Int) ≤ ⌊matmul_checksum N⌋ := Int.floor_nonneg.mpr h0
  have hcode : matmul N = some (Int.tmod (trunc (matmul_checksum N)) 1000000) := by
    unfold matmul checksum_result
    rw [cast_int_of_nonneg_lt _ h0 hlt, trunc_of_nonneg _ h0]
    rfl
  have hspec : spec_result (matmul_checksum N) = Int.tmod (trunc (matmul_checksum N)) 1000000 := by
    rw [spec_result_eq _ h0, trunc_of_nonneg _ h0, Int.tmod_eq_emod hfl (by norm_num)]
  refine ⟨hc, hcode, by rw [hspec]; exact hcode, ?_, ?_⟩
  · rw [spec_result_eq _ h0]; omega
  · rw [spec_result_eq _ h0]; omega

/-- Witness of C15: the size `N = 256` of `main`. -/
theorem matmul_return_convention_witness :
    matmul_checksum 256 = (242 / 100 : ℚ) * ((256 : Nat) : ℚ) ^ 3 ∧
    matmul 256 = some (Int.tmod (trunc (matmul_checksum 256)) 1000000) ∧
    matmul 256 = some (spec_result (matmul_checksum 256)) ∧
    0 ≤ spec_result (matmul_checksum 256) ∧ spec_result (matmul_checksum 256) ≤ 999999 :=
  (matmul_return_convention 256).2 (by norm_num)

/-! ## `sort_bench`: the final read -/

/-- C16, amended: for every `N ≥ 1` the read `arr[N/2]` at the end of `sort_bench(N)` is within
the bounds `[0, N)` of the array of `N` entries, and the routine returns an entry of the
sorted array. -/
theorem sort_bench_in_bounds (N : Nat) (hN : 1 ≤ N) :
    (sort_output N).length = N ∧ N / 2 < (sort_output N).length ∧
    ∃ v, sort_bench N = some v ∧ v ∈ sort_output N := by
  have hlen := sort_output_length N
  have hm : N / 2 < (sort_output N).length := by omega
  refine ⟨hlen, hm, (sort_output N)[N / 2], ?_, List.getElem_mem hm⟩
  unfold sort_bench
  exact List.getElem?_eq_getElem hm

/-- Witness of C16: the size `2 * 1024 * 1024` of `main`. -/
theorem sort_bench_in_bounds_witness :
    (sort_output (2 * 1024 * 1024)).length = 2 * 1024 * 1024 ∧
    2 * 1024 * 1024 / 2 < (sort_output (2 * 1024 * 1024)).length ∧
    ∃ v, sort_bench (2 * 1024 * 1024) = some v ∧ v ∈ sort_output (2 * 1024 * 1024) :=
  sort_bench_in_bounds (2 * 1024 * 1024) (by decide)

/-- Counterexample to C16 as stated: for `N = 0` the array is empty, the index `0/2 = 0` is
not below its length, and the read `arr[0]` has no value. -/
theorem sort_bench_zero_out_of_bounds :
    (sort_output 0).length = 0 ∧ ¬ (0 / 2 < (sort_output 0).length) ∧ sort_bench 0 = none := by
  have hlen := sort_output_length 0
  refine ⟨hlen, by rw [hlen]; decide, ?_⟩
  unfold sort_bench
  rw [List.getElem?_eq_none]
  rw [hlen]

/-! ## `fft`: the array indices -/

/-- The tracked index after the inner loop and `j += m` stays below `n`. -/
theorem bitrev_while_lt (n : Nat) : ∀ m j : Nat, 2 * m ≤ n → j < n →
    (bitrev_while m j).2 + (bitrev_while m j).1 < n := by
  intro m
  induction m using Nat.strong_induction_on with
  | _ m ih =>
    intro j hm hj
    by_cases hc : 1 ≤ m ∧ m ≤ j
    · rw [bitrev_while_step m j hc]
      exact ih (m / 2) (by omega) (j - m) (by omega) (by omega)
    · rw [bitrev_while_exit m j hc]
      simp only
      omega

/-- The inner loop of the bit-reversal phase ends with its condition false. -/
theorem bitrev_while_done : ∀ m j : Nat,
    ¬ (1 ≤ (bitrev_while m j).1 ∧ (bitrev_while m j).1 ≤ (bitrev_while m j).2) := by
  intro m
  induction m using Nat.strong_induction_on with
  | _ m ih =>
    intro j
    by_cases hc : 1 ≤ m ∧ m ≤ j
    · rw [bitrev_while_step m j hc]
      exact ih (m / 2) (by omega) (j - m)
    · rw [bitrev_while_exit m j hc]
      exact hc

/-- In the bit-reversal loop on `N ≥ 1` entries the tracked index stays below `N`, and every
swap is of two indices `i < j < N`. -/
theorem bitrev_loop_indices {R : Type} [Zero R] (N : Nat) (hN : 1 ≤ N) (x : List R)
    (count : Nat) (hc : count ≤ N) :
    (bitrev_loop N count x).j < N ∧
    ∀ p, p ∈ (bitrev_loop N count x).swaps → p.1 < p.2 ∧ p.2 < N := by
  induction count with
  | zero =>
    refine ⟨by simp only [bitrev_loop, List.range_zero, List.foldl_nil]; omega, fun p hp => ?_⟩
    simp [bitrev_loop] at hp
  | succ c ih =>
    obtain ⟨ih1, ih2⟩ := ih (by omega)
    unfold bitrev_loop at ih1 ih2 ⊢
    rw [List.range_succ, List.foldl_append]
    simp only [List.foldl]
    generalize (List.range c).foldl (bitrev_step N) { x := x, j := 0, swaps := [] } = st
      at ih1 ih2 ⊢
    simp only [bitrev_step]
    refine ⟨bitrev_while_lt N (N / 2) st.j (by omega) ih1, fun p hp => ?_⟩
    by_cases hlt : c < st.j
    · rw [if_pos hlt] at hp
      rcases List.mem_append.mp hp with h | h
      · exact ih2 p h
      · rw [List.mem_singleton] at h
        rw [h]
        exact ⟨hlt, ih1⟩
    · rw [if_neg hlt] at hp
      exact ih2 p hp

theorem two_pow_ctz_dvd (N : Nat) (hN : 1 ≤ N) : 2 ^ ctz N ∣ N := by
  induction N using Nat.strong_induction_on with
  | _ N ih =>
    have h0 : N ≠ 0 := by omega
    by_cases hodd : N % 2 = 1
    · rw [ctz, if_neg h0, if_pos hodd]
      simp
    · rw [ctz, if_neg h0, if_neg hodd, pow_succ]
      obtain ⟨q, hq⟩ := ih (N / 2) (by omega) (by omega)
      refine ⟨q, ?_⟩
      generalize ctz (N / 2) = t at hq ⊢
      have h2 : N = 2 * (2 ^ t * q) := by omega
      calc N = 2 * (2 ^ t * q) := h2
        _ = 2 ^ t * 2 * q := by ring

theorem fft_block_indices_lt (m k a : Nat) (ha : a ∈ fft_block_indices m k) : a < k + m := by
  unfold fft_block_indices at ha
  obtain ⟨j, hj, hmem⟩ := List.mem_flatMap.mp ha
  have hj' : j < m / 2 := List.mem_range.mp hj
  simp only [List.mem_cons, List.mem_singleton, List.not_mem_nil, or_false] at hmem
  rcases hmem with h | h | h | h <;> omega

/-- Every index used by the loop over the blocks of a stage is below `n`, when the blocks
from `k` on fill the array exactly. -/
theorem fft_kloop_indices_lt (n s c : Nat) :
    ∀ k, k + c * 2 ^ s = n → ∀ a, a ∈ fft_kloop_indices n s k → a < n := by
  induction c with
  | zero =>
    intro k hk a ha
    rw [fft_kloop_indices, if_neg (by omega)] at ha
    exact absurd ha (List.not_mem_nil a)
  | succ c ih =>
    intro k hk a ha
    have hpos : 0 < 2 ^ s := Nat.pos_pow_of_pos s (by decide)
    have hsplit : (c + 1) * 2 ^ s = c * 2 ^ s + 2 ^ s := by ring
    rw [fft_kloop_indices, if_pos (by omega)] at ha
    rcases List.mem_append.mp ha with h | h
    · have := fft_block_indices_lt _ _ _ h
      omega
    · exact ih (k + 2 ^ s) (by omega) a h

/-- C17: for every `N ≥ 1`, power of two or not, in the bit-reversal loop of `fft(N)` the
tracked index `j` stays below `N` and every swap is of two indices `i < j < N`; the inner
while loop ends with its condition false; every stage width `m = 2^s` with
`1 ≤ s ≤ ctz(N)` divides `N`, and every index `k + j`, `k + j + m/2` used by the butterfly
stages is below `N`. -/
theorem fft_index_safety {R : Type} [Zero R] (N : Nat) (hN : 1 ≤ N) (x : List R) :
    (∀ count, count ≤ N → (bitrev_loop N count x).j < N) ∧
    (∀ count, count ≤ N → ∀ p, p ∈ (bitrev_loop N count x).swaps → p.1 < p.2 ∧ p.2 < N) ∧
    (∀ m j, ¬ (1 ≤ (bitrev_while m j).1 ∧ (bitrev_while m j).1 ≤ (bitrev_while m j).2)) ∧
    (∀ s, s ∈ fft_stages N → 1 ≤ s ∧ s ≤ ctz N ∧ 2 ^ s ∣ N) ∧
    (∀ a, a ∈ fft_stage_indices N → a < N) := by
  have hst : ∀ s, s ∈ fft_stages N → 1 ≤ s ∧ s ≤ ctz N ∧ 2 ^ s ∣ N := by
    intro s hs
    unfold fft_stages at hs
    rw [List.mem_range'_1] at hs
    refine ⟨hs.1, by omega, ?_⟩
    exact Dvd.dvd.trans (pow_dvd_pow 2 (by omega)) (two_pow_ctz_dvd N hN)
  refine ⟨fun count hc => (bitrev_loop_indices N hN x count hc).1,
    fun count hc => (bitrev_loop_indices N hN x count hc).2, bitrev_while_done, hst,
    fun a ha => ?_⟩
  unfold fft_stage_indices at ha
  obtain ⟨s, hs, hmem⟩ := List.mem_flatMap.mp ha
  obtain ⟨c, hc⟩ := (hst s hs).2.2
  exact fft_kloop_indices_lt N s c 0 (by rw [hc, Nat.mul_comm]; omega) a hmem

/-- Witness of C17: `N = 6`, which is not a power of two. -/
theorem fft_index_safety_witness :
    (∀ count, count ≤ 6 → (bitrev_loop 6 count [(0 : Int), 1, 2, 3, 4, 5]).j < 6) ∧
    (∀ count, count ≤ 6 → ∀ p, p ∈ (bitrev_loop 6 count [(0 : Int), 1, 2, 3, 4, 5]).swaps →
      p.1 < p.2 ∧ p.2 < 6) ∧
    (∀ m j, ¬ (1 ≤ (bitrev_while m j).1 ∧ (bitrev_while m j).1 ≤ (bitrev_while m j).2)) ∧
    (∀ s, s ∈ fft_stages 6 → 1 ≤ s ∧ s ≤ ctz 6 ∧ 2 ^ s ∣ 6) ∧
    (∀ a, a ∈ fft_stage_indices 6 → a < 6) :=
  fft_index_safety 6 (by decide) [(0 : Int), 1, 2, 3, 4, 5]

/-! ## The signs of the checksums -/

theorem checksum_result_range {K : Type} [LinearOrderedField K] [FloorRing K] (v : K)
    (h0 : 0 ≤ v) (r : Int) (hr : checksum_result v = some r) : 0 ≤ r ∧ r ≤ 999999 := by
  have hfl : (0 : Int) ≤ ⌊v⌋ := Int.floor_nonneg.mpr h0
  unfold checksum_result at hr
  by_cases hlt : v < 2147483648
  · rw [cast_int_of_nonneg_lt v h0 hlt] at hr
    simp only [Option.map_some', Option.some.injEq] at hr
    rw [← hr, Int.tmod_eq_emod hfl (by norm_num)]
    omega
  · rw [cast_int_of_ge v (not_lt.mp hlt)] at hr
    exact Option.noConfusion hr

theorem wrapInt32_range (v : Int) : -2147483648 ≤ wrapInt32 v ∧ wrapInt32 v < 2147483648 := by
  unfold wrapInt32; omega

theorem generate_range (n : Nat) (s : MTState) :
    ∀ v, v ∈ generate n s → -2147483648 ≤ v ∧ v < 2147483648 := by
  induction n generalizing s with
  | zero => intro v hv; simp [generate] at hv
  | succ n ih =>
    intro v hv
    rw [generate, List.mem_cons] at hv
    rcases hv with h | h
    · rw [h]; exact wrapInt32_range _
    · exact ih _ v h

theorem matmul_checksum_nonneg (N : Nat) : 0 ≤ matmul_checksum N := by
  rw [matmul_checksum_eq]; positivity

theorem blur_eq_wrap (W H : Nat) :
    blur W H = wrapInt32 (128 * ((W - 2 : Nat) : Int) * ((H - 2 : Nat) : Int)) :=
  (blur_state_spec W H).2.2

/-- C12, amended: `mandelbrot(width, height, max_iter) ≥ 0` whenever
`width*height*max_iter < 2^31`; `matmul(N)` and `fft(2^k)` are in `[0, 999999]` whenever their
conversion to `int` is defined; `blur(W, H) ≥ 0` whenever `128*(W-2)*(H-2) < 2^31`; the buffer
sum is non-negative; `sort_bench(N)` is a 32-bit `int`, in `[-2^31, 2^31)`. For the constants
of `main`: `mandelbrot(800, 800, 1000) ≥ 0`, `matmul(256) = 600862`, `fft(2048)` is defined
and non-negative, `blur(1024, 1024) = 133693952`, and the buffer sum is `42`. -/
theorem checksums_nonneg :
    (∀ width height max_iter : Nat, width * height * max_iter < 2 ^ 31 →
      0 ≤ mandelbrot width height max_iter) ∧
    (∀ (N : Nat) (v : Int), matmul N = some v → 0 ≤ v ∧ v ≤ 999999) ∧
    (∀ (k : Nat) (v : Int),
      fft (fun m => Complex.exp (Complex.mk 0 (-2 * Real.pi / (m : ℝ))))
        (fun z => Complex.abs z) (2 ^ k) = some v → 0 ≤ v ∧ v ≤ 999999) ∧
    (∀ W H : Nat, 128 * (W - 2) * (H - 2) < 2 ^ 31 → 0 ≤ blur W H) ∧
    (∀ buf : List Nat, (0 : Int) ≤ (buffer_sum buf : Nat)) ∧
    (∀ (N : Nat) (v : Int), sort_bench N = some v → -2 ^ 31 ≤ v ∧ v < 2 ^ 31) ∧
    0 ≤ mandelbrot 800 800 1000 ∧
    matmul 256 = some 600862 ∧
    (∃ v : Int, fft (fun m => Complex.exp (Complex.mk 0 (-2 * Real.pi / (m : ℝ))))
        (fun z => Complex.abs z) (2 ^ 11) = some v ∧ 0 ≤ v) ∧
    blur 1024 1024 = 133693952 ∧
    buffer_sum big_data = 42 := by
  have hmandel : ∀ width height max_iter : Nat, width * height * max_iter < 2 ^ 31 →
      0 ≤ mandelbrot width height max_iter := by
    intro width height max_iter h
    have hb := (mandel_sum_bounds width height max_iter).2
    rw [mandelbrot_eq_sum _ _ _ (by norm_num at h; omega)]
    exact Int.natCast_nonneg _
  have hblur : ∀ W H : Nat, 128 * (W - 2) * (H - 2) < 2 ^ 31 →
      blur W H = ((128 * (W - 2) * (H - 2) : Nat) : Int) := by
    intro W H h
    rw [blur_eq_wrap]
    have e : 128 * ((W - 2 : Nat) : Int) * ((H - 2 : Nat) : Int)
        = ((128 * (W - 2) * (H - 2) : Nat) : Int) := by push_cast; ring
    rw [e]
    apply wrapInt32_of_range
    · have := Int.natCast_nonneg (128 * (W - 2) * (H - 2)); omega
    · norm_num at h; exact_mod_cast h
  refine ⟨hmandel, fun N v hv => checksum_result_range _ (matmul_checksum_nonneg N) v hv,
    fun k v hv => checksum_result_range _ (fft_checksum_nonneg k) v hv,
    fun W H h => by rw [hblur W H h]; exact Int.natCast_nonneg _,
    fun buf => Int.natCast_nonneg _, fun N v hv => ?_, hmandel 800 800 1000 (by norm_num),
    ?_, ?_, ?_, buffer_sum_single 42 _ (by decide)⟩
  · unfold sort_bench at hv
    have hmem : v ∈ sort_output N := List.getElem?_mem hv
    have hin : v ∈ sort_input N := (std_sort_perm _).mem_iff.mp hmem
    have := generate_range N _ v hin
    norm_num
    exact this
  · have h0 := matmul_checksum_nonneg 256
    have hc : matmul_checksum 256 = 40600862 + 72 / 100 := by
      rw [matmul_checksum_eq]; norm_num
    have hfl : ⌊matmul_checksum 256⌋ = 40600862 := by
      rw [Int.floor_eq_iff, hc]; norm_num
    unfold matmul checksum_result
    rw [cast_int_of_nonneg_lt _ h0 (by rw [hc]; norm_num), hfl]
    rfl
  · have h0 := fft_checksum_nonneg 11
    have hlt : fft_checksum (fun m => Complex.exp (Complex.mk 0 (-2 * Real.pi / (m : ℝ))))
        (fun z => Complex.abs z) (2 ^ 11) < 2147483648 :=
      lt_of_le_of_lt (fft_checksum_le 11) (by norm_num)
    refine ⟨Int.tmod ⌊fft_checksum
      (fun m => Complex.exp (Complex.mk 0 (-2 * Real.pi / (m : ℝ))))
      (fun z => Complex.abs z) (2 ^ 11)⌋ 1000000, ?_, ?_⟩
    · unfold fft checksum_result
      rw [cast_int_of_nonneg_lt _ h0 hlt]
      rfl
    · exact Int.tmod_nonneg _ (Int.floor_nonneg.mpr h0)
  · rw [hblur 1024 1024 (by norm_num)]
    norm_num

/-- Witness of C12: the constants 800 × 800 × 1000 of `main`. -/
theorem checksums_nonneg_witness : 0 ≤ mandelbrot 800 800 1000 :=
  checksums_nonneg.1 800 800 1000 (by norm_num)

set_option maxRecDepth 100000 in
/-- Counterexample to C12 as stated: the first three outputs of `std::mt19937` seeded with `42`
are 1608637542, 3421126067 and 4083286876; stored into `int` the last two are negative, and
`sort_bench(3)` returns the median `-211680420`, which is negative. -/
theorem sort_bench_three_negative :
    (1 ≤ 3) ∧ sort_bench 3 = some (-211680420) ∧ ¬ ((0 : Int) ≤ -211680420) := by
  refine ⟨by decide, ?_, by decide⟩
  decide!

end Bench
